import Mathlib

/-!
Verification of `src/format_novel.py` against its specification.

Python strings are modelled as `List Char` (one element per Unicode code
point, matching Python's `len`/indexing semantics).  Pure functions of the
script are transcribed directly; `textwrap.fill` (called with its default
options, i.e. `expand_tabs=True`, `replace_whitespace=True`,
`drop_whitespace=True`, `break_long_words=True`) is modelled from the
CPython implementation of `TextWrapper.wrap`.  Two documented
simplifications: the hyphen-aware splitting of `TextWrapper.wordsep_re`
(`break_on_hyphens`) is not modelled, so the model is faithful only for
texts containing no `-` characters, and `str.splitlines` is modelled for
`\n` line boundaries only (the exotic boundaries U+0085, U+2028, U+2029
never arise in the theorems below; `\v`, `\f`, `\r` are rewritten to
spaces by `munge_whitespace` before any line splitting happens).
-/

/-- Python strings are modelled as lists of characters. -/
abbrev Str := List Char

/-- Coercion from a Lean string literal to the model type. -/
def str (s : String) : Str := s.data

/-- Characters for which Python's `str.isspace` (and the regex class `\s`
on `str` patterns) returns true, given by code point: tab, newline,
vertical tab, form feed, carriage return, the separator controls
U+001C..U+001F, space, next line U+0085, no-break space U+00A0, ogham
space U+1680, the typographic spaces U+2000..U+200A, the line and
paragraph separators U+2028 and U+2029, narrow no-break space U+202F,
medium mathematical space U+205F, and ideographic space U+3000. -/
def isPyWs (c : Char) : Bool :=
  let n := c.toNat
  n == 9 || n == 10 || n == 11 || n == 12 || n == 13 ||
  (28 ≤ n && n ≤ 31) || n == 32 || n == 0x85 || n == 0xa0 || n == 0x1680 ||
  (0x2000 ≤ n && n ≤ 0x200a) || n == 0x2028 || n == 0x2029 ||
  n == 0x202f || n == 0x205f || n == 0x3000

/-- Python `str.lstrip()` (no argument): drop leading whitespace. -/
def pyLStrip (s : Str) : Str := s.dropWhile isPyWs

/-- Python `str.rstrip()` (no argument): drop trailing whitespace. -/
def pyRStrip (s : Str) : Str := (s.reverse.dropWhile isPyWs).reverse

/-- Python `str.strip()` (no argument): drop whitespace on both ends. -/
def pyStrip (s : Str) : Str := pyRStrip (pyLStrip s)

/-- Python `text.split("\n\n")`: split on each non-overlapping occurrence
of two consecutive newlines, scanning left to right. -/
def splitOnDoubleNewline : Str → List Str
  | [] => [[]]
  | [c] => [[c]]
  | c :: d :: rest =>
    if c = '\n' ∧ d = '\n' then [] :: splitOnDoubleNewline rest
    else
      match splitOnDoubleNewline (d :: rest) with
      | [] => [[c]]
      | p :: ps => (c :: p) :: ps

/-- Whether a string contains two consecutive newline characters (an
occurrence of the separator `"\n\n"`). -/
def hasDoubleNL : Str → Bool
  | [] => false
  | [_] => false
  | c :: d :: rest => (c = '\n' && d = '\n') || hasDoubleNL (d :: rest)

/-- Split a string at every `\n` character (keeping empty pieces), the
semantics of Python `text.split("\n")`. -/
def splitCharNL : Str → List Str
  | [] => [[]]
  | c :: rest =>
    if c = '\n' then [] :: splitCharNL rest
    else
      match splitCharNL rest with
      | [] => [[c]]
      | p :: ps => (c :: p) :: ps

/-- Python `str.splitlines()` for strings whose only line boundary
character is `\n`: like splitting on `\n` but without a final empty piece
for a trailing newline, and `[]` for the empty string. -/
def splitlinesNL (s : Str) : List Str :=
  if s = [] then []
  else if s.getLast? = some '\n' then splitCharNL s.dropLast
  else splitCharNL s

/-- Join a list of lines with `\n`, the semantics of `"\n".join(lines)`. -/
def joinNL (lines : List Str) : Str := List.intercalate ['\n'] lines

/-- Python `str.expandtabs()` with the default tab size 8: each tab is
replaced by spaces up to the next multiple-of-8 column; `\n` and `\r`
reset the column. -/
def expandtabsGo : Nat → Str → Str
  | _, [] => []
  | col, c :: rest =>
    if c = '\t' then
      List.replicate (8 - col % 8) ' ' ++ expandtabsGo (col + (8 - col % 8)) rest
    else if c = '\n' ∨ c = '\r' then c :: expandtabsGo 0 rest
    else c :: expandtabsGo (col + 1) rest

/-- CPython `TextWrapper._munge_whitespace` with the default options:
`expandtabs`, then each of `\t \n \x0b \x0c \r` becomes a space. -/
def mungeWhitespace (text : Str) : Str :=
  (expandtabsGo 0 text).map fun c =>
    if c = '\t' ∨ c = '\n' ∨ c = '\x0b' ∨ c = '\x0c' ∨ c = '\r' then ' ' else c

/-- Split a string into its maximal runs of whitespace and of
non-whitespace characters, in order.  This is CPython
`TextWrapper._split` minus the hyphen rules of `wordsep_re` (see the
header comment). -/
def splitChunks : Str → List Str
  | [] => []
  | [c] => [[c]]
  | c :: d :: rest =>
    match splitChunks (d :: rest) with
    | [] => [[c]]
    | run :: runs =>
      if isPyWs c = isPyWs d then (c :: run) :: runs else [c] :: run :: runs

/-- Test whether a chunk consists of whitespace only, the Python
condition `chunk.strip() == ''`. -/
def chunkIsWs (c : Str) : Bool := pyStrip c == []

/-- Inner greedy loop of `TextWrapper._wrap_chunks`: consume chunks while
they fit into the remaining effective width, returning the consumed
prefix and the rest. -/
def greedyTake (effWidth : Int) (curLen : Int) : List Str → List Str × List Str
  | [] => ([], [])
  | c :: cs =>
    if curLen + c.length ≤ effWidth then
      match greedyTake effWidth (curLen + c.length) cs with
      | (taken, rest) => (c :: taken, rest)
    else ([], c :: cs)

/-- CPython `TextWrapper._handle_long_word` with `break_long_words=True`
and no hyphen in the chunk: move `space_left` characters of the
over-long head chunk onto the current line. -/
def handleLong (effWidth curLen : Int) (d : Str) (ds cur : List Str) :
    List Str × List Str :=
  let spaceLeft : Int := if effWidth < 1 then 1 else effWidth - curLen
  (cur ++ [d.take spaceLeft.toNat], d.drop spaceLeft.toNat :: ds)

/-- Drop the final chunk of the current line when it is pure whitespace
(done once, not repeatedly, exactly as in CPython). -/
def dropTrailingWs (cur : List Str) : List Str :=
  match cur.getLast? with
  | some l => if chunkIsWs l then cur.dropLast else cur
  | none => cur

/-- First act of a `_wrap_chunks` iteration: with `drop_whitespace` and a
non-empty line list, a leading all-whitespace chunk is dropped. -/
def wrapDropLead (lines : List Str) (c : Str) (cs : List Str) : List Str :=
  if lines ≠ [] ∧ chunkIsWs c then cs else c :: cs

/-- Second act: when the chunk that stopped the greedy loop is longer
than the effective width, `_handle_long_word` is invoked with the
current line length. -/
def wrapHandle (effWidth : Int) (cur rest1 : List Str) : List Str × List Str :=
  match rest1 with
  | [] => (cur, rest1)
  | d :: ds =>
    if (d.length : Int) > effWidth then
      handleLong effWidth ((cur.map List.length).sum : Nat) d ds cur
    else (cur, rest1)

/-- One iteration of the `while chunks` loop of
`TextWrapper._wrap_chunks`; returns the remaining chunks and the updated
line list. -/
def wrapStep (width : Nat) (indentStr : Str) (c : Str) (cs : List Str)
    (lines : List Str) : List Str × List Str :=
  let effWidth : Int := (width : Int) - (indentStr.length : Int)
  let gt := greedyTake effWidth 0 (wrapDropLead lines c cs)
  let hl := wrapHandle effWidth gt.1 gt.2
  let cur3 := dropTrailingWs hl.1
  (hl.2, if cur3 ≠ [] then lines ++ [indentStr ++ cur3.flatten] else lines)

/-- Termination measure for the wrapping loop: total character count plus
chunk count.  Every iteration of `wrapStep` strictly decreases it (it
either drops a whitespace chunk, consumes at least one whole chunk, or
splits at least one character off an over-long chunk). -/
def chunkMeasure (chunks : List Str) : Nat :=
  (chunks.map List.length).sum + chunks.length

/-- Fuel-indexed wrapping loop.  With fuel exceeding `chunkMeasure` of the
input (as supplied by `wrapText`) the fuel never runs out, so the
zero-fuel branch is dead code. -/
def wrapFuel (width : Nat) (indentStr : Str) : Nat → List Str → List Str → List Str
  | 0, _, lines => lines
  | _ + 1, [], lines => lines
  | fuel + 1, c :: cs, lines =>
    match wrapStep width indentStr c cs lines with
    | (rest, lines') => wrapFuel width indentStr fuel rest lines'

/-- CPython `TextWrapper.wrap` with the script's options: munge
whitespace, split into chunks, run the wrapping loop. -/
def wrapText (text : Str) (width : Nat) (indentStr : Str) : List Str :=
  let chunks := splitChunks (mungeWhitespace text)
  wrapFuel width indentStr (chunkMeasure chunks + 1) chunks []

/-- Python `textwrap.fill(text, width=width, initial_indent=indentStr,
subsequent_indent=indentStr)` as called by `format_paragraphs` (both
indents equal).  Python raises `ValueError` for `width <= 0`; the model
takes a natural-number width and is only used with `width ≥ 1`. -/
def fill (text : Str) (width : Nat) (indentStr : Str) : Str :=
  joinNL (wrapText text width indentStr)

/-- Python `str.rjust(width)` with the default space fill. -/
def pyRjust (s : Str) (width : Nat) : Str :=
  if width ≤ s.length then s else List.replicate (width - s.length) ' ' ++ s

/-- Paragraph list of `format_paragraphs`:
`[para.strip() for para in text.split("\n\n") if para.strip()]`. -/
def paragraphsOf (text : Str) : List Str :=
  (splitOnDoubleNewline text).filterMap fun para =>
    let p := pyStrip para
    if p = [] then none else some p

/-- Wrapped block built by `format_paragraphs` for one paragraph:
`textwrap.fill(...).splitlines()`, optionally right-justified, rejoined
with `\n`. -/
def wrappedBlock (width : Nat) (indentStr : Str) (rtlAlign : Bool)
    (para : Str) : Str :=
  let wrapped := splitlinesNL (fill para width indentStr)
  let wrapped := if rtlAlign then wrapped.map (fun l => pyRjust l width) else wrapped
  joinNL wrapped

/-- Transcription of `format_paragraphs(text, width, indent, rtl_align,
line_spacing)` from `src/format_novel.py`: split on blank-line
boundaries, wrap each paragraph, join the blocks with
`"\n" * max(line_spacing, 1)`. -/
def formatParagraphs (text : Str) (width : Nat) (indent : Int := 0)
    (rtlAlign : Bool := false) (lineSpacing : Int := 1) : Str :=
  let indentStr : Str := List.replicate (max indent 0).toNat ' '
  let wrappedBlocks := (paragraphsOf text).map (wrappedBlock width indentStr rtlAlign)
  let spacer : Str := List.replicate (max lineSpacing 1).toNat '\n'
  List.intercalate spacer wrappedBlocks

/-- CPython `str.center(width, fillchar)`: unchanged when the string is
at least `width` long; otherwise padded with `marg // 2 + (marg & width
& 1)` fill characters on the left and the rest on the right. -/
def pyCenter (s : Str) (width : Nat) (fillChar : Char) : Str :=
  if width ≤ s.length then s
  else
    let marg := width - s.length
    let left := marg / 2 + (marg &&& width &&& 1)
    List.replicate left fillChar ++ s ++ List.replicate (marg - left) fillChar

/-- Transcription of `center_block(lines, width)`: strip and centre each
line (space fill), join with `\n`. -/
def centerBlock (lines : List Str) (width : Nat) : Str :=
  joinNL (lines.map fun line => pyCenter (pyStrip line) width ' ')

/-- Default ornament symbol of the script. -/
def ornamentDefault : Str := str ("✧")

/-- Transcription of `section_header(title, width, underline, ornament)`:
the ornamented title `" {ornament} {title.strip()} {ornament} "` centred
to `width` with the underline character as fill. -/
def sectionHeader (title : Str) (width : Nat) (underline : Char := '═')
    (ornament : Str := ornamentDefault) : Str :=
  let ornamented := ' ' :: ornament ++ ' ' :: pyStrip title ++ ' ' :: ornament ++ [' ']
  pyCenter ornamented width underline

/-- Transcription of `ornamental_break(width, symbol)`. -/
def ornamentalBreak (width : Nat) (symbol : Str := ornamentDefault) : Str :=
  centerBlock [symbol ++ symbol ++ symbol] width

/-- Decimal digit character for a value below ten. -/
def digitChar (n : Nat) : Char := Char.ofNat ('0'.toNat + n)

/-- Decimal rendering of a natural number (fuel-based structural
recursion so that it reduces in the kernel). -/
def natToStrGo : Nat → Nat → Str
  | 0, _ => []
  | fuel + 1, n =>
    if n < 10 then [digitChar n] else natToStrGo fuel (n / 10) ++ [digitChar (n % 10)]

/-- Decimal rendering of a natural number, Python `str(n)` / `f"{n}"`. -/
def natToStr (n : Nat) : Str := natToStrGo (n + 1) n

/-- Insert a comma after every third character of a reversed digit
string. -/
def groupRev : Nat → Str → Str
  | 0, s => s
  | fuel + 1, s =>
    if s.length ≤ 3 then s else s.take 3 ++ ',' :: groupRev fuel (s.drop 3)

/-- Python `f"{n:,}"`: decimal rendering with comma thousands
separators. -/
def natToStrGrouped (n : Nat) : Str :=
  (groupRev (natToStr n).length (natToStr n).reverse).reverse

/-- Maximal non-whitespace runs of a string, in order (the matches of
`re.findall(r"\S+", text)`). -/
def tokensOf (text : Str) : List Str :=
  (splitChunks text).filter fun run => !chunkIsWs run

/-- Transcription of `word_count(text)`:
`len(re.findall(r"\S+", text))`. -/
def wordCount (text : Str) : Nat := (tokensOf text).length

/-- Required chapter count, `REQUIRED_CHAPTER_COUNT = 25`. -/
def requiredChapterCount : Nat := 25

/-- Line list assembled by `build_statistics` before centring. -/
def buildStatisticsLines (introText : Str) (chapters : List Str)
    (conclusionText : Str) : List Str :=
  [str ("ملخص إحصائي"), []] ++
  [str ("كلمات المقدمة: ") ++ natToStrGrouped (wordCount introText)] ++
  (chapters.enum.map fun p =>
    str ("كلمات الفصل ") ++ natToStr (p.1 + 1) ++ str (": ") ++
      natToStrGrouped (wordCount p.2)) ++
  [str ("كلمات الخاتمة: ") ++ natToStrGrouped (wordCount conclusionText)] ++
  [[]] ++
  [str ("إجمالي الكلمات: ") ++
    natToStrGrouped (wordCount introText + wordCount conclusionText +
      (chapters.map wordCount).sum)]

/-- Transcription of `build_statistics`: the statistics lines centred to
`width`. -/
def buildStatistics (introText : Str) (chapters : List Str)
    (conclusionText : Str) (width : Nat) : Str :=
  centerBlock (buildStatisticsLines introText chapters conclusionText) width

/-- Line list assembled by `build_table_of_contents` before centring. -/
def tocLines (introTitle conclusionTitle : Str) : List Str :=
  [str ("جدول المحتويات"), [], str ("1. ") ++ introTitle] ++
  ((List.range requiredChapterCount).map fun idx =>
    natToStr (idx + 2) ++ str (". الفصل ") ++ natToStr (idx + 1)) ++
  [natToStr (requiredChapterCount + 2) ++ str (". ") ++ conclusionTitle]

/-- Transcription of `build_table_of_contents`. -/
def buildTableOfContents (introTitle conclusionTitle : Str) (width : Nat) : Str :=
  centerBlock (tocLines introTitle conclusionTitle) width

/-- Transcription of `build_title_page`. -/
def buildTitlePage (title author : Str) (tagline epigraph : Option Str)
    (width : Nat) (ornament : Str) : Str :=
  let titleLines := [title] ++ (match tagline with | some t => [t] | none => []) ++
    [str ("بقلم ") ++ author]
  let blocks := [sectionHeader (str ("✦✦✦")) width '═' ornament,
    centerBlock titleLines width,
    sectionHeader (str ("✦✦✦")) width '═' ornament]
  let blocks := blocks ++
    (match epigraph with
     | some e => [joinNL [ornamentalBreak width ornament,
         centerBlock [e] width, ornamentalBreak width ornament]]
     | none => [])
  List.intercalate (str ("\n\n")) blocks

/-- Header line of the chapter numbered `idx` (1-based), as produced in
the chapter loop of `format_novel`. -/
def chapterHeader (idx width : Nat) (ornament : Str) : Str :=
  sectionHeader (str ("الفصل ") ++ natToStr idx) width '═' ornament

/-- Section list assembled by `format_novel` (the successive
`formatted_sections.append(...)` calls). -/
def formatNovelSections (title author introText : Str) (chapters : List Str)
    (conclusionText : Str) (tagline : Option Str) (width : Nat)
    (paragraphIndent : Int) (includeStats : Bool) (rtlAlign : Bool)
    (lineSpacing : Int) (ornament : Str) (epigraph : Option Str) : List Str :=
  [buildTitlePage title author tagline epigraph width ornament,
   buildTableOfContents (str ("المقدمة")) (str ("الخاتمة")) width,
   sectionHeader (str ("المقدمة")) width '═' ornament,
   formatParagraphs introText width paragraphIndent rtlAlign lineSpacing] ++
  (if includeStats then [buildStatistics introText chapters conclusionText width]
   else []) ++
  (chapters.enum.flatMap fun p =>
    [chapterHeader (p.1 + 1) width ornament,
     formatParagraphs p.2 width paragraphIndent rtlAlign lineSpacing]) ++
  [sectionHeader (str ("الخاتمة")) width '═' ornament,
   formatParagraphs conclusionText width paragraphIndent rtlAlign lineSpacing,
   sectionHeader (str ("النهاية")) width '─' ornament,
   centerBlock [str ("تمت")] width]

/-- Transcription of `format_novel`: the sections joined with blank lines
plus a trailing newline. -/
def formatNovel (title author introText : Str) (chapters : List Str)
    (conclusionText : Str) (tagline : Option Str := none) (width : Nat := 84)
    (paragraphIndent : Int := 0) (includeStats : Bool := false)
    (rtlAlign : Bool := false) (lineSpacing : Int := 1)
    (ornament : Str := ornamentDefault) (epigraph : Option Str := none) : Str :=
  List.intercalate (str ("\n\n"))
    (formatNovelSections title author introText chapters conclusionText tagline
      width paragraphIndent includeStats rtlAlign lineSpacing ornament epigraph)
  ++ ['\n']

/-- ASCII decimal digit test (the digits produced by `re.split(r"(\d+)",
...)` and accepted by `int(...)` in the inputs considered here; Python's
`\d` additionally matches non-ASCII decimal digits, which are not
modelled). -/
def isDigitChar (c : Char) : Bool := '0' ≤ c && c ≤ '9'

/-- Numeric value of a digit string, Python `int(chunk)` for a string of
ASCII digits. -/
def digitsVal (s : Str) : Nat :=
  s.foldl (fun acc c => acc * 10 + (c.toNat - '0'.toNat)) 0

/-- Python `re.split(r"(\d+)", s)`: the pieces between digit runs
(possibly empty) interleaved with the captured digit runs, so the result
alternates non-digit, digit, non-digit, ... starting and ending with a
possibly empty non-digit piece. -/
def reSplitDigits : Str → List Str
  | [] => [[]]
  | c :: rest =>
    if isDigitChar c then
      match reSplitDigits rest with
      | [] :: d :: ps => [] :: (c :: d) :: ps
      | ps => [] :: [c] :: ps
    else
      match reSplitDigits rest with
      | [] => [[c]]
      | p :: ps => (c :: p) :: ps

/-- Elements of the key returned by `natural_sort_key`: either an
integer (a digit run) or a lower-cased string piece. -/
inductive KeyPart where
  | intPart (n : Nat)
  | strPart (s : Str)
deriving DecidableEq

/-- Final component of a path, the part after the last `/`. -/
def pathName (p : Str) : Str := (p.reverse.takeWhile (· ≠ '/')).reverse

/-- Index of the last `.` in a name containing one, Python
`name.rfind('.')`. -/
def lastDotIndex (name : Str) : Nat :=
  name.length - 1 - name.reverse.indexOf '.'

/-- CPython `PurePath.stem`: the name with its last suffix removed when
`0 < name.rfind('.') < len(name) - 1`, otherwise the name itself. -/
def pathStem (p : Str) : Str :=
  if '.' ∈ pathName p then
    if 0 < lastDotIndex (pathName p) ∧
        lastDotIndex (pathName p) < (pathName p).length - 1 then
      (pathName p).take (lastDotIndex (pathName p))
    else pathName p
  else pathName p

/-- Transcription of `natural_sort_key(path)`: split the stem around
digit runs, drop empty chunks, turn digit runs into integers and the
rest into lower-cased strings (`Char.toLower` handles the ASCII range,
enough for the file names considered). -/
def naturalSortKey (p : Str) : List KeyPart :=
  (reSplitDigits (pathStem p)).filterMap fun chunk =>
    if chunk = [] then none
    else if chunk.all isDigitChar then some (.intPart (digitsVal chunk))
    else some (.strPart (chunk.map Char.toLower))

/-- Lexicographic comparison of strings by code point, Python `str`
comparison. -/
def strCmp : Str → Str → Ordering
  | [], [] => .eq
  | [], _ :: _ => .lt
  | _ :: _, [] => .gt
  | c :: cs, d :: ds =>
    match compare c.toNat d.toNat with
    | .eq => strCmp cs ds
    | o => o

/-- Comparison of key elements.  Python raises `TypeError` when an `int`
meets a `str`; that case never arises in the theorems below, and the
model arbitrarily orders integers before strings to keep the comparison
total. -/
def keyPartCmp : KeyPart → KeyPart → Ordering
  | .intPart n, .intPart m => compare n m
  | .strPart s, .strPart t => strCmp s t
  | .intPart _, .strPart _ => .lt
  | .strPart _, .intPart _ => .gt

/-- Lexicographic comparison of sort keys, Python list comparison. -/
def keyCmp : List KeyPart → List KeyPart → Ordering
  | [], [] => .eq
  | [], _ :: _ => .lt
  | _ :: _, [] => .gt
  | a :: as, b :: bs =>
    match keyPartCmp a b with
    | .eq => keyCmp as bs
    | o => o

/-- Ordering of chapter paths by their natural sort keys. -/
def pathLe (p q : Str) : Bool := keyCmp (naturalSortKey p) (naturalSortKey q) ≠ .gt

/-- The sort `sorted(chapter_paths, key=natural_sort_key)` performed by
`gather_chapters`.  Python's sort is stable; for the total comparison
`pathLe` every stable sort produces the same sequence, so it is modelled
by stable insertion sort. -/
def sortChapterPaths (paths : List Str) : List Str :=
  List.insertionSort (fun p q => pathLe p q = true) paths

/-- Entry of the abstract file system: whether the path is a regular
file, and its text content. -/
structure FileEntry where
  isFile : Bool
  content : Str

/-- Abstract file system: a partial map from paths to entries
(`none` models a non-existent path). -/
def FileSys := Str → Option FileEntry

/-- Python `path.exists()`. -/
def pathExists (fs : FileSys) (p : Str) : Bool := (fs p).isSome

/-- Python `path.is_file()`. -/
def pathIsFile (fs : FileSys) (p : Str) : Bool :=
  match fs p with
  | some e => e.isFile
  | none => false

/-- Transcription of `read_text(path)`: the content with a leading byte
order mark removed and surrounding whitespace stripped. -/
def readText (fs : FileSys) (p : Str) : Str :=
  match fs p with
  | some e => pyStrip (e.content.dropWhile (· = '﻿'))
  | none => []

/-- Collapse every run of three or more newlines to exactly two, the
effect of `re.sub(r"\n{3,}", "\n\n", text)`; `nlCount` counts the
newlines already emitted for the current run. -/
def collapseGo (nlCount : Nat) : Str → Str
  | [] => []
  | c :: rest =>
    if c = '\n' then
      if 2 ≤ nlCount then collapseGo nlCount rest
      else '\n' :: collapseGo (nlCount + 1) rest
    else c :: collapseGo 0 rest

/-- Transcription of `normalize_spacing(text)`: collapse noisy blank
lines, then right-strip every line. -/
def normalizeSpacing (text : Str) : Str :=
  joinNL ((splitlinesNL (collapseGo 0 text)).map pyRStrip)

/-- Prefix split at the first occurrence of `sep`: `some (before,
after)` when `sep` occurs, scanning left to right. -/
def splitFirst (sep : Str) : Str → Option (Str × Str)
  | [] => none
  | c :: rest =>
    if sep.isPrefixOf (c :: rest) then some ([], (c :: rest).drop sep.length)
    else
      match splitFirst sep rest with
      | none => none
      | some (b, a) => some (c :: b, a)

/-- Fuel-indexed loop for `str.replace`; each step consumes at least
`sep.length ≥ 1` characters, so `s.length + 1` fuel suffices. -/
def pyReplaceGo (sep rep : Str) : Nat → Str → Str
  | 0, s => s
  | fuel + 1, s =>
    match splitFirst sep s with
    | none => s
    | some (b, a) => b ++ rep ++ pyReplaceGo sep rep fuel a

/-- Python `s.replace(sep, rep)` for a non-empty separator. -/
def pyReplace (s sep rep : Str) : Str :=
  if sep = [] then s else pyReplaceGo sep rep (s.length + 1) s

/-- Localized punctuation marks targeted by `re.sub(r"\s+([،؛؟…])",
r"\1", ...)`. -/
def isArabicMark (c : Char) : Bool := c = '،' || c = '؛' || c = '؟' || c = '…'

/-- Fuel-indexed loop removing every whitespace run that immediately
precedes a localized punctuation mark. -/
def rmWsGo : Nat → Str → Str
  | 0, s => s
  | _ + 1, [] => []
  | fuel + 1, c :: rest =>
    if isPyWs c then
      let tail := (c :: rest).dropWhile isPyWs
      match tail with
      | m :: rest2 =>
        if isArabicMark m then m :: rmWsGo fuel rest2
        else ((c :: rest).takeWhile isPyWs) ++ rmWsGo fuel tail
      | [] => (c :: rest).takeWhile isPyWs
    else c :: rmWsGo fuel rest

/-- Transcription of `refine_arabic_punctuation(text)`: the six
replacements applied in dictionary order, then whitespace before a
localized mark removed. -/
def refineArabicPunctuation (text : Str) : Str :=
  let r1 := pyReplace text (str (",")) (str ("،"))
  let r2 := pyReplace r1 (str ("?")) (str ("؟"))
  let r3 := pyReplace r2 (str (";")) (str ("؛"))
  let r4 := pyReplace r3 (str ("...")) (str ("…"))
  let r5 := pyReplace r4 (str ("\"")) (str ("”"))
  let r6 := pyReplace r5 (str ("'")) (str ("’"))
  rmWsGo r6.length r6

/-- Errors surfaced by the gathering and validation stage, named after
the specification's taxonomy.  In the source `fileNotFound` is a Python
`FileNotFoundError` while both `countMismatch` and `validationFailed`
are `ValueError`s distinguished by their messages. -/
inductive NovelError where
  | fileNotFound (msg : Str)
  | countMismatch (msg : Str)
  | validationFailed (msg : Str)
deriving DecidableEq

deriving instance DecidableEq for Except

/-- Transcription of `ensure_not_empty(label, text)`. -/
def ensureNotEmpty (label text : Str) : Except NovelError Str :=
  if pyStrip text = [] then
    .error (.validationFailed (str ("المحتوى الخاص بـ ") ++ label ++ str (" فارغ")))
  else .ok (refineArabicPunctuation (normalizeSpacing text))

/-- Transcription of `gather_chapters(chapter_paths)`: sort by the
natural key, fail on any missing or non-regular file (listing them),
then fail on a count different from 25, then read and validate every
chapter. -/
def gatherChapters (fs : FileSys) (chapterPaths : List Str) :
    Except NovelError (List Str) :=
  let sortedPaths := sortChapterPaths chapterPaths
  let missing := sortedPaths.filter fun p => !(pathExists fs p && pathIsFile fs p)
  if missing ≠ [] then
    .error (.fileNotFound
      (str ("أحد ملفات الفصول غير موجود أو ليس ملفًا صالحًا: ") ++
        List.intercalate (str (", ")) missing))
  else if sortedPaths.length ≠ requiredChapterCount then
    .error (.countMismatch (str ("Expected ") ++ natToStr requiredChapterCount ++
      str (" chapters but received ") ++ natToStr sortedPaths.length))
  else sortedPaths.mapM fun p => ensureNotEmpty p (readText fs p)

/-- Decomposition of an over-long word into pieces of at most `w`
characters, the specification-side description of what `break_long_words`
does to a single token. -/
def piecesGo (w : Nat) : Nat → Str → List Str
  | 0, t => [t]
  | fuel + 1, t => if t.length ≤ w then [t] else t.take w :: piecesGo w fuel (t.drop w)

def piecesOf (w : Nat) (t : Str) : List Str := piecesGo w t.length t

/-- Chapter file name of the shape used in the specification's sorting
example. -/
def mkChapterPath (n : Nat) : Str := str ("c") ++ natToStr n ++ str (".txt")

/-- Numeric index embedded in a chapter file name of the shape
`c<digits>.txt`. -/
def chapNum (p : Str) : Nat := digitsVal (p.filter isDigitChar)

/-- Test whether a section string equals one of the 25 chapter headers. -/
def isChapterHeaderB (width : Nat) (ornament : Str) (sec : Str) : Bool :=
  (List.range requiredChapterCount).any fun i =>
    sec == chapterHeader (i + 1) width ornament

/-- Number of empty lines of a string when split at newline characters. -/
def blankLineCount (s : Str) : Nat :=
  (splitCharNL s).countP (fun l => l == [])

theorem pyCenter_length (s : Str) (width : Nat) (c : Char) :
    (pyCenter s width c).length = max width s.length := by
  unfold pyCenter
  split
  · omega
  · have hb : ((width - s.length) &&& width &&& 1) ≤ 1 := Nat.and_le_right
    simp only [List.length_append, List.length_replicate]
    omega

theorem sectionHeader_length (title : Str) (width : Nat) (underline : Char)
    (ornament : Str) :
    (sectionHeader title width underline ornament).length =
      max width ((pyStrip title).length + 2 * ornament.length + 4) := by
  unfold sectionHeader
  rw [pyCenter_length]
  simp only [List.length_cons, List.length_append, List.length_nil]
  omega

theorem splitOnDoubleNewline_no_nl (s : Str) (h : '\n' ∉ s) :
    splitOnDoubleNewline s = [s] := by
  induction s with
  | nil => rfl
  | cons c rest ih =>
    have hc : c ≠ '\n' := fun hc => h (hc ▸ List.mem_cons_self c rest)
    have hrest : '\n' ∉ rest := fun hr => h (List.mem_cons_of_mem c hr)
    match rest with
    | [] => rfl
    | d :: rest2 =>
      have : splitOnDoubleNewline (d :: rest2) = [d :: rest2] := ih hrest
      simp only [splitOnDoubleNewline, this]
      rw [if_neg]
      rintro ⟨h1, _⟩
      exact hc h1

theorem splitCharNL_no_nl (s : Str) (h : '\n' ∉ s) : splitCharNL s = [s] := by
  induction s with
  | nil => rfl
  | cons c rest ih =>
    have hc : c ≠ '\n' := fun hc => h (hc ▸ List.mem_cons_self c rest)
    have hrest : '\n' ∉ rest := fun hr => h (List.mem_cons_of_mem c hr)
    simp only [splitCharNL, if_neg hc, ih hrest]

theorem splitCharNL_ne_nil (s : Str) : splitCharNL s ≠ [] := by
  cases s with
  | nil => simp [splitCharNL]
  | cons c rest =>
    simp only [splitCharNL]
    split
    · simp
    · split <;> simp

theorem splitCharNL_cons_ne (c : Char) (t : Str) (hc : c ≠ '\n') :
    splitCharNL (c :: t) = (c :: (splitCharNL t).headI) :: (splitCharNL t).tail := by
  obtain ⟨p, ps, hx⟩ : ∃ p ps, splitCharNL t = p :: ps := by
    cases h : splitCharNL t with
    | nil => exact absurd h (splitCharNL_ne_nil t)
    | cons p ps => exact ⟨p, ps, rfl⟩
  simp only [splitCharNL, if_neg hc, hx]
  simp

theorem splitCharNL_append (x y : Str) :
    splitCharNL (x ++ '\n' :: y) = splitCharNL x ++ splitCharNL y := by
  induction x with
  | nil => simp [splitCharNL]
  | cons c rest ih =>
    by_cases hc : c = '\n'
    · subst hc
      simp [splitCharNL, ih]
    · obtain ⟨p, ps, hx⟩ : ∃ p ps, splitCharNL rest = p :: ps := by
        cases h : splitCharNL rest with
        | nil => exact absurd h (splitCharNL_ne_nil rest)
        | cons p ps => exact ⟨p, ps, rfl⟩
      rw [List.cons_append, splitCharNL_cons_ne c _ hc, splitCharNL_cons_ne c _ hc,
        ih, hx]
      simp

theorem joinNL_single (l : Str) : joinNL [l] = l := by
  simp [joinNL, List.intercalate]

theorem joinNL_cons (l : Str) (ls : List Str) (h : ls ≠ []) :
    joinNL (l :: ls) = l ++ '\n' :: joinNL ls := by
  cases ls with
  | nil => exact absurd rfl h
  | cons m ms => simp [joinNL, List.intercalate, List.intersperse]

theorem joinNL_ne_nil (l : Str) (ls : List Str) (h : l ≠ []) :
    joinNL (l :: ls) ≠ [] := by
  cases ls with
  | nil => simpa [joinNL_single] using h
  | cons m ms => simp [joinNL_cons l (m :: ms) (by simp), h]

theorem splitCharNL_joinNL (lines : List Str) (hne : lines ≠ [])
    (h : ∀ l ∈ lines, '\n' ∉ l) :
    splitCharNL (joinNL lines) = lines := by
  induction lines with
  | nil => exact absurd rfl hne
  | cons l ls ih =>
    cases ls with
    | nil => rw [joinNL_single]; exact splitCharNL_no_nl l (h l (by simp))
    | cons m ms =>
      rw [joinNL_cons l (m :: ms) (by simp), splitCharNL_append,
        splitCharNL_no_nl l (h l (by simp)), ih (by simp)]
      · simp
      · intro x hx
        exact h x (List.mem_cons_of_mem l hx)

theorem joinNL_getLast?_ne_nl (lines : List Str)
    (h : ∀ l ∈ lines, l ≠ [] ∧ '\n' ∉ l) :
    (joinNL lines).getLast? ≠ some '\n' := by
  induction lines with
  | nil => simp [joinNL, List.intercalate]
  | cons l ls ih =>
    cases ls with
    | nil =>
      rw [joinNL_single]
      intro hcon
      exact (h l (by simp)).2 (List.mem_of_mem_getLast? hcon)
    | cons m ms =>
      rw [joinNL_cons l (m :: ms) (by simp)]
      have hjoin : joinNL (m :: ms) ≠ [] := joinNL_ne_nil m ms (h m (by simp)).1
      have : ('\n' :: joinNL (m :: ms)) = ['\n'] ++ joinNL (m :: ms) := rfl
      rw [List.getLast?_append, this, List.getLast?_append]
      obtain ⟨a, ha⟩ := Option.isSome_iff_exists.mp
        (List.getLast?_isSome.mpr hjoin)
      rw [ha]
      intro hcon
      have hac : some a = some '\n' := hcon
      apply ih (fun x hx => h x (List.mem_cons_of_mem l hx))
      rw [ha, Option.some_inj.mp hac]

theorem splitlinesNL_joinNL (lines : List Str) (hne : lines ≠ [])
    (h : ∀ l ∈ lines, l ≠ [] ∧ '\n' ∉ l) :
    splitlinesNL (joinNL lines) = lines := by
  have hjoin : joinNL lines ≠ [] := by
    cases lines with
    | nil => exact absurd rfl hne
    | cons l ls => exact joinNL_ne_nil l ls (h l (by simp)).1
  have hlast := joinNL_getLast?_ne_nl lines h
  unfold splitlinesNL
  rw [if_neg hjoin, if_neg (by simpa using hlast)]
  exact splitCharNL_joinNL lines hne (fun l hl => (h l hl).2)

theorem pyLStrip_no_ws (s : Str) (h : ∀ c ∈ s, isPyWs c = false) :
    pyLStrip s = s := by
  cases s with
  | nil => rfl
  | cons c rest =>
    simp [pyLStrip, List.dropWhile_cons, h c (by simp)]

theorem pyStrip_no_ws (s : Str) (h : ∀ c ∈ s, isPyWs c = false) :
    pyStrip s = s := by
  have h2 : ∀ c ∈ s.reverse, isPyWs c = false := fun c hc =>
    h c (List.mem_reverse.mp hc)
  unfold pyStrip pyRStrip
  rw [pyLStrip_no_ws s h,
    show s.reverse.dropWhile isPyWs = pyLStrip s.reverse from rfl,
    pyLStrip_no_ws s.reverse h2, List.reverse_reverse]

theorem chunkIsWs_false (s : Str) (hne : s ≠ []) (h : ∀ c ∈ s, isPyWs c = false) :
    chunkIsWs s = false := by
  simp [chunkIsWs, pyStrip_no_ws s h, hne]

theorem expandtabsGo_no_ws (s : Str) (h : ∀ c ∈ s, isPyWs c = false) :
    ∀ col, expandtabsGo col s = s := by
  induction s with
  | nil => intro col; rfl
  | cons c rest ih =>
    intro col
    have hc := h c (by simp)
    have ht : c ≠ '\t' := by rintro rfl; simp [isPyWs] at hc
    have hn : ¬(c = '\n' ∨ c = '\r') := by
      rintro (rfl | rfl) <;> simp [isPyWs] at hc
    simp [expandtabsGo, ht, hn, ih (fun x hx => h x (by simp [hx]))]

theorem mungeWhitespace_no_ws (s : Str) (h : ∀ c ∈ s, isPyWs c = false) :
    mungeWhitespace s = s := by
  unfold mungeWhitespace
  rw [expandtabsGo_no_ws s h 0]
  have : ∀ c ∈ s, (if c = '\t' ∨ c = '\n' ∨ c = '\x0b' ∨ c = '\x0c' ∨ c = '\r'
      then ' ' else c) = c := by
    intro c hc
    have := h c hc
    rw [if_neg]
    rintro (rfl | rfl | rfl | rfl | rfl) <;> simp [isPyWs] at this
  calc s.map _ = s.map id := List.map_congr_left this
  _ = s := List.map_id s

theorem splitChunks_token (s : Str) (hne : s ≠ []) (h : ∀ c ∈ s, isPyWs c = false) :
    splitChunks s = [s] := by
  induction s with
  | nil => exact absurd rfl hne
  | cons c rest ih =>
    cases rest with
    | nil => rfl
    | cons d rest2 =>
      have hd : splitChunks (d :: rest2) = [d :: rest2] :=
        ih (by simp) (fun x hx => h x (by simp [hx]))
      simp only [splitChunks, hd]
      rw [if_pos]
      rw [h c (by simp), h d (by simp)]

theorem piecesGo_eq (w : Nat) (hw : 1 ≤ w) :
    ∀ n t f, t.length ≤ n → t.length ≤ f → piecesGo w f t = piecesOf w t := by
  intro n
  induction n with
  | zero =>
    intro t f h1 _
    have : t = [] := List.eq_nil_of_length_eq_zero (Nat.le_zero.mp h1)
    subst this
    cases f <;> simp [piecesGo, piecesOf]
  | succ n ih =>
    intro t f h1 h2
    by_cases hle : t.length ≤ w
    · cases t with
      | nil => cases f <;> simp [piecesGo, piecesOf]
      | cons c rest =>
        obtain ⟨g, rfl⟩ : ∃ g, f = g + 1 := ⟨f - 1, by simp at h2; omega⟩
        have hm : (c :: rest).length = rest.length + 1 := rfl
        have hle2 : rest.length + 1 ≤ w := by simpa using hle
        simp only [piecesGo, piecesOf, hm, if_pos hle2]
    · obtain ⟨g, rfl⟩ : ∃ g, f = g + 1 := ⟨f - 1, by omega⟩
      simp only [piecesGo, if_neg hle]
      rw [ih (t.drop w) g (by simp; omega) (by simp; omega)]
      have hm : t.length = (t.length - 1) + 1 := by omega
      conv_rhs => rw [piecesOf, hm]
      simp only [piecesGo, if_neg hle]
      rw [ih (t.drop w) (t.length - 1) (by simp; omega) (by simp; omega)]

theorem piecesOf_step (w : Nat) (t : Str) (hw : 1 ≤ w) (hlt : w < t.length) :
    piecesOf w t = t.take w :: piecesOf w (t.drop w) := by
  have hm : t.length = (t.length - 1) + 1 := by omega
  conv_lhs => rw [piecesOf, hm]
  simp only [piecesGo, if_neg (by omega : ¬t.length ≤ w)]
  rw [piecesGo_eq w hw (t.drop w).length (t.drop w) (t.length - 1) le_rfl
    (by simp; omega)]

theorem piecesOf_flatten (w : Nat) (hw : 1 ≤ w) :
    ∀ t, (piecesOf w t).flatten = t := by
  have main : ∀ n t, t.length ≤ n → (piecesOf w t).flatten = t := by
    intro n
    induction n with
    | zero =>
      intro t ht
      have : t = [] := List.eq_nil_of_length_eq_zero (Nat.le_zero.mp ht)
      subst this; rfl
    | succ n ih =>
      intro t ht
      by_cases hle : t.length ≤ w
      · unfold piecesOf
        cases hn : t.length with
        | zero =>
          have : t = [] := List.eq_nil_of_length_eq_zero hn
          subst this; rfl
        | succ k => simp [piecesGo, hle]
      · rw [piecesOf_step w t hw (by omega)]
        simp only [List.flatten_cons]
        rw [ih (t.drop w) (by simp; omega)]
        exact List.take_append_drop w t
  exact fun t => main t.length t le_rfl

theorem piecesOf_small (w : Nat) (t : Str) (hle : t.length ≤ w) :
    piecesOf w t = [t] := by
  cases t with
  | nil => rfl
  | cons c rest =>
    have hle2 : rest.length + 1 ≤ w := by simpa using hle
    simp only [piecesOf, List.length_cons, piecesGo, if_pos hle2]

theorem wrapFuel_nil (w : Nat) (ind : Str) (f : Nat) (lines : List Str) :
    wrapFuel w ind f [] lines = lines := by cases f <;> rfl

theorem greedyTake_nil (e l : Int) : greedyTake e l [] = ([], []) := rfl

theorem greedyTake_cons_fits (e l : Int) (c : Str) (cs : List Str)
    (h : l + c.length ≤ e) :
    greedyTake e l (c :: cs) =
      ((c :: (greedyTake e (l + c.length) cs).1),
        (greedyTake e (l + c.length) cs).2) := by
  simp only [greedyTake, if_pos h]

theorem greedyTake_cons_nofit (e l : Int) (c : Str) (cs : List Str)
    (h : ¬(l + c.length ≤ e)) :
    greedyTake e l (c :: cs) = ([], c :: cs) := by
  simp only [greedyTake, if_neg h]

theorem wrapStep_token_small (w : Nat) (t : Str) (lines : List Str)
    (_hw : 1 ≤ w) (hne : t ≠ []) (hch : ∀ c ∈ t, isPyWs c = false)
    (hle : t.length ≤ w) :
    wrapStep w [] t [] lines = ([], lines ++ [t]) := by
  have hcw : chunkIsWs t = false := chunkIsWs_false t hne hch
  have hdrop : wrapDropLead lines t [] = [t] := by
    simp [wrapDropLead, hcw]
  have heff : ((w : Int) - (([] : Str).length : Int)) = (w : Int) := by simp
  have hgt : greedyTake ((w : Int) - (([] : Str).length : Int)) 0 [t] =
      ([t], []) := by
    rw [heff, greedyTake_cons_fits _ _ _ _ (by omega),
      greedyTake_nil]
  have hdt : dropTrailingWs [t] = [t] := by
    simp [dropTrailingWs, hcw]
  show ((wrapHandle _ (greedyTake _ 0 (wrapDropLead lines t [])).1
      (greedyTake _ 0 (wrapDropLead lines t [])).2).2,
    if dropTrailingWs (wrapHandle _ (greedyTake _ 0 (wrapDropLead lines t [])).1
        (greedyTake _ 0 (wrapDropLead lines t [])).2).1 ≠ [] then
      lines ++ [[] ++ (dropTrailingWs (wrapHandle _ _ _).1).flatten]
    else lines) = ([], lines ++ [t])
  rw [hdrop, hgt]
  show ((wrapHandle _ [t] []).2,
    if dropTrailingWs (wrapHandle _ [t] []).1 ≠ [] then
      lines ++ [[] ++ (dropTrailingWs (wrapHandle _ [t] []).1).flatten]
    else lines) = ([], lines ++ [t])
  rw [show wrapHandle ((w : Int) - (([] : Str).length : Int)) [t] [] = ([t], []) from rfl]
  simp [hdt, hne]

theorem wrapStep_token_long (w : Nat) (t : Str) (lines : List Str)
    (hw : 1 ≤ w) (hch : ∀ c ∈ t, isPyWs c = false)
    (hgt : w < t.length) :
    wrapStep w [] t [] lines = ([t.drop w], lines ++ [t.take w]) := by
  have hne : t ≠ [] := by intro h; subst h; simp at hgt
  have hcw : chunkIsWs t = false := chunkIsWs_false t hne hch
  have hlentake : (t.take w).length = w := by simp; omega
  have htkne : t.take w ≠ [] := by
    intro h
    rw [h] at hlentake
    simp at hlentake
    omega
  have htake : chunkIsWs (t.take w) = false := chunkIsWs_false (t.take w)
    htkne (fun c hc => hch c (List.mem_of_mem_take hc))
  have hdrop : wrapDropLead lines t [] = [t] := by simp [wrapDropLead, hcw]
  have hg : greedyTake ((w : Int) - (([] : Str).length : Int)) 0 [t] =
      ([], [t]) := by
    rw [greedyTake_cons_nofit]
    simp only [List.length_nil, Nat.cast_zero, Int.sub_zero, zero_add]
    omega
  have hcond1 : ((t.length : Int) > (w : Int) - (([] : Str).length : Int)) := by
    simp only [List.length_nil, Nat.cast_zero, Int.sub_zero]
    omega
  have hcond2 : ¬((w : Int) - (([] : Str).length : Int) < 1) := by
    simp only [List.length_nil, Nat.cast_zero, Int.sub_zero]
    omega
  have hh : wrapHandle ((w : Int) - (([] : Str).length : Int)) [] [t] =
      ([t.take w], [t.drop w]) := by
    simp only [wrapHandle]
    rw [if_pos hcond1]
    simp only [handleLong]
    rw [if_neg hcond2]
    simp only [List.length_nil, Nat.cast_zero, Int.sub_zero, List.map_nil,
      List.sum_nil, Int.sub_zero, Int.toNat_natCast, List.nil_append]
  have hdt : dropTrailingWs [t.take w] = [t.take w] := by
    simp [dropTrailingWs, htake]
  simp only [wrapStep, hdrop, hg, hh, hdt]
  simp [htkne]

theorem wrapFuel_single (w : Nat) (hw : 1 ≤ w) :
    ∀ fuel t lines, t ≠ [] → (∀ c ∈ t, isPyWs c = false) →
      t.length + 1 < fuel →
      wrapFuel w [] fuel [t] lines = lines ++ piecesOf w t := by
  intro fuel
  induction fuel with
  | zero => intro t lines _ _ hf; omega
  | succ f ih =>
    intro t lines hne hch hf
    by_cases hle : t.length ≤ w
    · rw [show wrapFuel w [] (f + 1) [t] lines =
        (match wrapStep w [] t [] lines with
         | (rest, lines') => wrapFuel w [] f rest lines') from rfl,
        wrapStep_token_small w t lines hw hne hch hle]
      show wrapFuel w [] f [] (lines ++ [t]) = lines ++ piecesOf w t
      rw [wrapFuel_nil, piecesOf_small w t hle]
    · rw [show wrapFuel w [] (f + 1) [t] lines =
        (match wrapStep w [] t [] lines with
         | (rest, lines') => wrapFuel w [] f rest lines') from rfl,
        wrapStep_token_long w t lines hw hch (by omega)]
      show wrapFuel w [] f [t.drop w] (lines ++ [t.take w]) = lines ++ piecesOf w t
      rw [ih (t.drop w) (lines ++ [t.take w])
        (by intro h; have := congrArg List.length h; simp at this; omega)
        (fun c hc => hch c (List.mem_of_mem_drop hc))
        (by simp; omega)]
      rw [piecesOf_step w t hw (by omega), List.append_assoc]
      rfl

theorem fill_single_token (w : Nat) (t : Str) (hw : 1 ≤ w) (hne : t ≠ [])
    (hch : ∀ c ∈ t, isPyWs c = false) :
    fill t w [] = joinNL (piecesOf w t) := by
  unfold fill wrapText
  rw [mungeWhitespace_no_ws t hch, splitChunks_token t hne hch]
  rw [wrapFuel_single w hw _ t [] hne hch (by simp [chunkMeasure])]
  rfl

theorem piecesOf_ne_nil (w : Nat) (t : Str) : piecesOf w t ≠ [] := by
  unfold piecesOf
  cases h : t.length with
  | zero => simp [piecesGo]
  | succ k =>
    simp only [piecesGo]
    split <;> simp

theorem piecesOf_mem_subset (w : Nat) (hw : 1 ≤ w) :
    ∀ t, ∀ p ∈ piecesOf w t, (t ≠ [] → p ≠ []) ∧ ∀ c ∈ p, c ∈ t := by
  have main : ∀ n t, t.length ≤ n → ∀ p ∈ piecesOf w t,
      (t ≠ [] → p ≠ []) ∧ ∀ c ∈ p, c ∈ t := by
    intro n
    induction n with
    | zero =>
      intro t ht p hp
      have : t = [] := List.eq_nil_of_length_eq_zero (Nat.le_zero.mp ht)
      subst this
      simp [piecesOf, piecesGo] at hp
      subst hp
      simp
    | succ n ih =>
      intro t ht p hp
      by_cases hle : t.length ≤ w
      · rw [piecesOf_small w t hle] at hp
        simp at hp
        subst hp
        exact ⟨fun h => h, fun c hc => hc⟩
      · rw [piecesOf_step w t hw (by omega)] at hp
        rcases List.mem_cons.mp hp with rfl | hp2
        · constructor
          · intro _ h
            have := congrArg List.length h
            rw [List.length_take, List.length_nil] at this
            omega
          · exact fun c hc => List.mem_of_mem_take hc
        · have := ih (t.drop w) (by simp; omega) p hp2
          refine ⟨fun _ => this.1 ?_, fun c hc => List.mem_of_mem_drop (this.2 c hc)⟩
          intro h
          have := congrArg List.length h
          simp at this
          omega
  exact fun t => main t.length t le_rfl

theorem intercalate_single (sep : Str) (b : Str) :
    List.intercalate sep [b] = b := by
  simp [List.intercalate]

theorem formatParagraphs_token_eq (t : Str) (w : Nat) (hw : 1 ≤ w)
    (hne : t ≠ []) (hch : ∀ c ∈ t, isPyWs c = false) :
    formatParagraphs t w = joinNL (piecesOf w t) := by
  have hnl : '\n' ∉ t := by
    intro h
    have := hch '\n' h
    simp [isPyWs] at this
  have hparas : paragraphsOf t = [t] := by
    unfold paragraphsOf
    rw [splitOnDoubleNewline_no_nl t hnl]
    simp [pyStrip_no_ws t hch, hne]
  have hpieces : ∀ p ∈ piecesOf w t, p ≠ [] ∧ '\n' ∉ p := by
    intro p hp
    obtain ⟨h1, h2⟩ := piecesOf_mem_subset w hw t p hp
    exact ⟨h1 hne, fun hc => hnl (h2 '\n' hc)⟩
  unfold formatParagraphs
  rw [hparas]
  simp only [List.map_cons, List.map_nil]
  rw [show (max (0 : Int) 0).toNat = 0 from rfl, List.replicate]
  unfold wrappedBlock
  rw [fill_single_token w t hw hne hch]
  simp only [Bool.false_eq_true, if_false]
  rw [splitlinesNL_joinNL (piecesOf w t) (piecesOf_ne_nil w t) hpieces]
  exact intercalate_single _ _

/-- Claim C1, corrected.  The spec says a single token longer than
`width` is emitted whole on one line.  In fact `textwrap.fill` is called
with its defaults, so `break_long_words=True` applies: an over-long token
is broken into pieces of at most `width` characters, one per line.  No
characters are lost (the pieces concatenate back to the token), but the
output is never the token itself. -/
theorem c1_long_token (t : Str) (w : Nat) (hw : 1 ≤ w) (hlen : w < t.length)
    (hch : ∀ c ∈ t, isPyWs c = false ∧ c ≠ '-') :
    formatParagraphs t w = joinNL (piecesOf w t) ∧
    (piecesOf w t).flatten = t ∧
    formatParagraphs t w ≠ t := by
  have hne : t ≠ [] := by intro h; subst h; simp at hlen
  have hch1 : ∀ c ∈ t, isPyWs c = false := fun c hc => (hch c hc).1
  have heq := formatParagraphs_token_eq t w hw hne hch1
  refine ⟨heq, piecesOf_flatten w hw t, ?_⟩
  rw [heq]
  intro hcon
  have hnl : '\n' ∈ joinNL (piecesOf w t) := by
    rw [piecesOf_step w t hw hlen,
      joinNL_cons _ _ (piecesOf_ne_nil w (t.drop w))]
    simp
  rw [hcon] at hnl
  have := hch1 '\n' hnl
  simp [isPyWs] at this

theorem c1_counterexample :
    formatParagraphs (str ("abcdef")) 3 = str ("abc\ndef") ∧
    str ("abc\ndef") ≠ str ("abcdef") := by
  constructor
  · decide
  · decide

/-- Claim C3, corrected.  `section_header` centres the ornamented title
with `str.center(width, underline)`, which never truncates: the result
has length `max width (len(title.strip()) + 2 * len(ornament) + 4)`, so
it equals `width` only when the ornamented title fits.  The concrete
instance `header("Intro", 20)` does have length 20. -/
theorem c3_header_length (title : Str) (width : Nat) (underline : Char)
    (ornament : Str) :
    (sectionHeader title width underline ornament).length =
      max width ((pyStrip title).length + 2 * ornament.length + 4) ∧
    (sectionHeader (str ("Intro")) 20).length = 20 := by
  refine ⟨sectionHeader_length title width underline ornament, ?_⟩
  decide

theorem c3_counterexample :
    (sectionHeader (str ("abcdefghijklmnopqrst")) 20).length ≠ 20 := by
  decide

/-- Claim C9, confirmed.  `format_paragraphs` clamps its integer
options: `" " * indent` is empty for any `indent ≤ 0`, and
`"\n" * max(line_spacing, 1)` makes any `line_spacing ≤ 1` behave like 1,
so negative values are total and equivalent to the clamped ones. -/
theorem c9_clamps (text : Str) (width : Nat) (rtl : Bool)
    (indent lineSpacing : Int) :
    (indent ≤ 0 → formatParagraphs text width indent rtl lineSpacing =
      formatParagraphs text width 0 rtl lineSpacing) ∧
    (lineSpacing ≤ 1 → formatParagraphs text width indent rtl lineSpacing =
      formatParagraphs text width indent rtl 1) := by
  constructor
  · intro h
    unfold formatParagraphs
    rw [max_eq_right h, max_self]
  · intro h
    unfold formatParagraphs
    rw [max_eq_right h, max_self]

theorem c9_witness :
    formatParagraphs (str ("a b")) 3 (-2) false 0 =
      formatParagraphs (str ("a b")) 3 0 false 0 ∧
    formatParagraphs (str ("a b")) 3 (-2) false 0 =
      formatParagraphs (str ("a b")) 3 (-2) false 1 :=
  ⟨(c9_clamps (str ("a b")) 3 false (-2) 0).1 (by decide),
   (c9_clamps (str ("a b")) 3 false (-2) 0).2 (by decide)⟩

/-- Claim C8, confirmed.  The last statistics line reports the grand
total, which is the word count of the introduction plus the word counts
of all chapters plus the word count of the conclusion; the spec's
concrete example 2 + 3 + 1 = 6 checks out. -/
theorem c8_statistics_total (introText : Str) (chapters : List Str)
    (conclusionText : Str) :
    (buildStatisticsLines introText chapters conclusionText).getLast? =
      some (str ("إجمالي الكلمات: ") ++ natToStrGrouped
        (wordCount introText + (chapters.map wordCount).sum +
          wordCount conclusionText)) ∧
    wordCount (str ("a b")) = 2 ∧ wordCount (str ("c d e")) = 3 ∧
    wordCount (str ("f")) = 1 ∧
    wordCount (str ("a b")) + ([str ("c d e")].map wordCount).sum +
      wordCount (str ("f")) = 6 := by
  refine ⟨?_, by decide, by decide, by decide, by decide⟩
  unfold buildStatisticsLines
  rw [show wordCount introText + wordCount conclusionText +
      (List.map wordCount chapters).sum =
      wordCount introText + (List.map wordCount chapters).sum +
      wordCount conclusionText by omega]
  have hor : ∀ (a : Str) (o : Option Str), (some a).or o = some a :=
    fun _ _ => rfl
  simp only [List.getLast?_append, List.getLast?_singleton, hor]

theorem sortChapterPaths_perm (paths : List Str) :
    (sortChapterPaths paths).Perm paths :=
  List.perm_insertionSort _ paths

theorem gatherChapters_count_mismatch (fs : FileSys) (paths : List Str)
    (hex : ∀ p ∈ paths, pathExists fs p = true ∧ pathIsFile fs p = true)
    (hcount : paths.length ≠ requiredChapterCount) :
    gatherChapters fs paths = .error (.countMismatch
      (str ("Expected 25 chapters but received ") ++ natToStr paths.length)) := by
  have hlen : (sortChapterPaths paths).length = paths.length :=
    (sortChapterPaths_perm paths).length_eq
  have hmiss : (sortChapterPaths paths).filter
      (fun p => !(pathExists fs p && pathIsFile fs p)) = [] := by
    rw [List.filter_eq_nil_iff]
    intro p hp
    obtain ⟨h1, h2⟩ := hex p ((sortChapterPaths_perm paths).mem_iff.mp hp)
    simp [h1, h2]
  unfold gatherChapters
  simp only [hmiss, ne_eq, not_true_eq_false, if_false, reduceIte, hlen,
    if_pos hcount]
  have hmsg : str ("Expected ") ++ (natToStr requiredChapterCount ++
      (str (" chapters but received ") ++ natToStr paths.length)) =
      str ("Expected 25 chapters but received ") ++ natToStr paths.length := by
    rw [← List.append_assoc, ← List.append_assoc]
    exact congrArg (fun l => l ++ natToStr paths.length) (by decide)
  rw [show str ("Expected ") ++ natToStr requiredChapterCount ++
      str (" chapters but received ") ++ natToStr paths.length =
      str ("Expected ") ++ (natToStr requiredChapterCount ++
      (str (" chapters but received ") ++ natToStr paths.length)) from rfl,
    hmsg]

/-- Claim C6, confirmed.  When every path exists and is a regular file
but the count differs from 25, `gather_chapters` fails with the
count-mismatch error, whose message reports only the expected and
received counts. -/
theorem c6_count_mismatch (fs : FileSys) (paths : List Str)
    (hex : ∀ p ∈ paths, pathExists fs p = true ∧ pathIsFile fs p = true)
    (hcount : paths.length ≠ requiredChapterCount) :
    gatherChapters fs paths = .error (.countMismatch
      (str ("Expected 25 chapters but received ") ++ natToStr paths.length)) :=
  gatherChapters_count_mismatch fs paths hex hcount

theorem c6_witness :
    gatherChapters (fun _ => some ⟨true, str ("x")⟩) [str ("a.txt")] =
      .error (.countMismatch
        (str ("Expected 25 chapters but received ") ++ natToStr 1)) :=
  c6_count_mismatch (fun _ => some ⟨true, str ("x")⟩) [str ("a.txt")]
    (by decide) (by decide)

/-- Claim C10, confirmed.  In `gather_chapters` the missing-file check
runs first: any missing path yields the file-not-found error even when
the count is also wrong; and the count check runs before any file
content is read, so with all paths present and a wrong count the result
is the count-mismatch error and is unchanged under any modification of
the file contents (modelled by a second file system agreeing on existence
and regular-file status only). -/
theorem c10_check_order (fs fs' : FileSys) (paths : List Str)
    (hsame : ∀ p, pathExists fs' p = pathExists fs p ∧
      pathIsFile fs' p = pathIsFile fs p) :
    ((∃ p ∈ paths, ¬(pathExists fs p = true ∧ pathIsFile fs p = true)) →
      ∃ msg, gatherChapters fs paths = .error (.fileNotFound msg)) ∧
    ((∀ p ∈ paths, pathExists fs p = true ∧ pathIsFile fs p = true) →
      paths.length ≠ requiredChapterCount →
      gatherChapters fs paths = .error (.countMismatch
        (str ("Expected 25 chapters but received ") ++ natToStr paths.length)) ∧
      gatherChapters fs' paths = gatherChapters fs paths) := by
  constructor
  · rintro ⟨p, hp, hbad⟩
    have hpin : p ∈ sortChapterPaths paths :=
      (sortChapterPaths_perm paths).mem_iff.mpr hp
    have hmem : p ∈ (sortChapterPaths paths).filter
        (fun q => !(pathExists fs q && pathIsFile fs q)) := by
      rw [List.mem_filter]
      refine ⟨hpin, ?_⟩
      simp only [Bool.not_eq_true', Bool.and_eq_false_iff]
      rcases Bool.eq_false_or_eq_true (pathExists fs p) with h | h
      · rcases Bool.eq_false_or_eq_true (pathIsFile fs p) with h2 | h2
        · exact absurd ⟨h, h2⟩ hbad
        · exact Or.inr h2
      · exact Or.inl h
    have hne : (sortChapterPaths paths).filter
        (fun q => !(pathExists fs q && pathIsFile fs q)) ≠ [] :=
      List.ne_nil_of_mem hmem
    refine ⟨str ("أحد ملفات الفصول غير موجود أو ليس ملفًا صالحًا: ") ++
      List.intercalate (str (", "))
        ((sortChapterPaths paths).filter fun q =>
          !(pathExists fs q && pathIsFile fs q)), ?_⟩
    unfold gatherChapters
    simp only [ne_eq, hne, not_false_eq_true, if_true, reduceIte]
  · intro hex hcount
    refine ⟨gatherChapters_count_mismatch fs paths hex hcount, ?_⟩
    have hex' : ∀ p ∈ paths, pathExists fs' p = true ∧ pathIsFile fs' p = true := by
      intro p hp
      obtain ⟨h1, h2⟩ := hex p hp
      exact ⟨(hsame p).1.trans h1, (hsame p).2.trans h2⟩
    rw [gatherChapters_count_mismatch fs paths hex hcount,
      gatherChapters_count_mismatch fs' paths hex' hcount]

theorem digitChar_val (m : Nat) (hm : m < 10) :
    (digitChar m).toNat - '0'.toNat = m ∧ isDigitChar (digitChar m) = true := by
  interval_cases m <;> exact ⟨by decide, by decide⟩

theorem natToStrGo_spec : ∀ fuel n, n < fuel →
    natToStrGo fuel n ≠ [] ∧ (∀ c ∈ natToStrGo fuel n, isDigitChar c = true) ∧
    digitsVal (natToStrGo fuel n) = n := by
  intro fuel
  induction fuel with
  | zero => intro n h; omega
  | succ f ih =>
    intro n h
    by_cases h10 : n < 10
    · simp only [natToStrGo, if_pos h10]
      refine ⟨by simp, ?_, ?_⟩
      · intro c hc
        simp at hc
        subst hc
        exact (digitChar_val n h10).2
      · show digitsVal [digitChar n] = n
        unfold digitsVal
        simp only [List.foldl_cons, List.foldl_nil, Nat.zero_mul, Nat.zero_add]
        exact (digitChar_val n h10).1
    · simp only [natToStrGo, if_neg h10]
      obtain ⟨h1, h2, h3⟩ := ih (n / 10) (by omega)
      have hmlt : n % 10 < 10 := Nat.mod_lt n (by norm_num)
      refine ⟨by simp [h1], ?_, ?_⟩
      · intro c hc
        rcases List.mem_append.mp hc with hc | hc
        · exact h2 c hc
        · simp at hc
          subst hc
          exact (digitChar_val (n % 10) hmlt).2
      · unfold digitsVal
        rw [List.foldl_append]
        show (List.foldl _ (digitsVal (natToStrGo f (n / 10))) [digitChar (n % 10)]) = n
        simp only [List.foldl_cons, List.foldl_nil]
        rw [h3, (digitChar_val (n % 10) hmlt).1]
        omega

theorem natToStr_spec (n : Nat) :
    natToStr n ≠ [] ∧ (∀ c ∈ natToStr n, isDigitChar c = true) ∧
    digitsVal (natToStr n) = n :=
  natToStrGo_spec (n + 1) n (by omega)

theorem chapNum_mk (n : Nat) : chapNum (mkChapterPath n) = n := by
  unfold chapNum mkChapterPath
  rw [List.filter_append, List.filter_append]
  rw [show List.filter isDigitChar (str ("c")) = [] from rfl,
    show List.filter isDigitChar (str (".txt")) = [] from rfl,
    List.filter_eq_self.mpr (natToStr_spec n).2.1]
  simp
  exact (natToStr_spec n).2.2

theorem reSplitDigits_digitrun (ds : Str) (hne : ds ≠ [])
    (hd : ∀ c ∈ ds, isDigitChar c = true) :
    reSplitDigits ds = [[], ds, []] := by
  induction ds with
  | nil => exact absurd rfl hne
  | cons d rest ih =>
    have hdd : isDigitChar d = true := hd d (by simp)
    cases rest with
    | nil => simp only [reSplitDigits, if_pos hdd]
    | cons e rest2 =>
      have hr := ih (by simp) (fun c hc => hd c (by simp [hc]))
      simp only [reSplitDigits, if_pos hdd] at hr ⊢
      rw [hr]

theorem takeWhile_all_true (l : List Char) (p : Char → Bool)
    (h : ∀ c ∈ l, p c = true) : l.takeWhile p = l := by
  induction l with
  | nil => rfl
  | cons c rest ih =>
    rw [List.takeWhile_cons, if_pos (h c (by simp))]
    rw [ih (fun x hx => h x (by simp [hx]))]

theorem pathName_no_slash (p : Str) (h : ∀ c ∈ p, ¬(c = '/')) :
    pathName p = p := by
  unfold pathName
  rw [takeWhile_all_true _ _ ?_, List.reverse_reverse]
  intro c hc
  simp only [decide_eq_true_eq]
  exact h c (List.mem_reverse.mp hc)

theorem naturalSortKey_mk (n : Nat) :
    naturalSortKey (mkChapterPath n) =
      [KeyPart.strPart (str ("c")), KeyPart.intPart n] := by
  obtain ⟨hne, hdig, hval⟩ := natToStr_spec n
  have hmk : mkChapterPath n = 'c' :: (natToStr n ++ ['.', 't', 'x', 't']) := rfl
  have hname : pathName (mkChapterPath n) = mkChapterPath n := by
    apply pathName_no_slash
    intro c hc
    rw [hmk] at hc
    rcases List.mem_cons.mp hc with rfl | hc
    · decide
    · rcases List.mem_append.mp hc with hc | hc
      · intro hcon
        subst hcon
        have := hdig '/' hc
        simp [isDigitChar] at this
      · simp at hc
        rcases hc with rfl | rfl | rfl | rfl <;> decide
  have hrev : (mkChapterPath n).reverse =
      't' :: 'x' :: 't' :: '.' :: ((natToStr n).reverse ++ ['c']) := by
    rw [hmk]
    rw [List.reverse_cons, List.reverse_append]
    rfl
  have hidx : (mkChapterPath n).reverse.indexOf '.' = 3 := by
    rw [hrev]
    rw [List.indexOf_cons_ne _ (by decide), List.indexOf_cons_ne _ (by decide),
      List.indexOf_cons_ne _ (by decide), List.indexOf_cons_self]
  have hlen : (mkChapterPath n).length = (natToStr n).length + 5 := by
    rw [hmk]
    simp
  have hdot : '.' ∈ pathName (mkChapterPath n) := by
    rw [hname, hmk]
    simp
  have hsi : lastDotIndex (pathName (mkChapterPath n)) =
      (natToStr n).length + 1 := by
    unfold lastDotIndex
    rw [hname, hidx, hlen]
    omega
  have hstem : pathStem (mkChapterPath n) = 'c' :: natToStr n := by
    unfold pathStem
    rw [if_pos hdot, hsi]
    rw [if_pos (by rw [hname, hlen]; omega)]
    rw [hname, hmk, List.take_succ_cons, List.take_left]
  unfold naturalSortKey
  rw [hstem]
  have hsplit : reSplitDigits ('c' :: natToStr n) = [['c'], natToStr n, []] := by
    cases hcase : natToStr n with
    | nil => exact absurd hcase hne
    | cons a b =>
      rw [show reSplitDigits ('c' :: a :: b) =
        (if isDigitChar 'c' = true then
          match reSplitDigits (a :: b) with
          | [] :: d :: ps => [] :: ('c' :: d) :: ps
          | ps => [] :: ['c'] :: ps
        else
          match reSplitDigits (a :: b) with
          | [] => [['c']]
          | p :: ps => ('c' :: p) :: ps) from rfl]
      rw [if_neg (by decide)]
      rw [← hcase, reSplitDigits_digitrun (natToStr n) hne hdig]
  rw [hsplit]
  simp only [List.filterMap_cons, List.filterMap_nil]
  rw [show (if (['c'] : Str) = [] then none else
      if ['c'].all isDigitChar then some (KeyPart.intPart (digitsVal ['c']))
      else some (KeyPart.strPart (['c'].map Char.toLower))) =
    some (KeyPart.strPart (str ("c"))) from by decide]
  rw [if_neg (by simpa using hne), if_pos (List.all_eq_true.mpr hdig), hval]
  rfl

theorem keyCmp_mk (m n : Nat) :
    keyCmp (naturalSortKey (mkChapterPath m)) (naturalSortKey (mkChapterPath n)) =
      compare m n := by
  rw [naturalSortKey_mk, naturalSortKey_mk]
  rw [show keyCmp [KeyPart.strPart (str ("c")), KeyPart.intPart m]
      [KeyPart.strPart (str ("c")), KeyPart.intPart n] =
    (match keyPartCmp (.strPart (str ("c"))) (.strPart (str ("c"))) with
     | .eq => keyCmp [KeyPart.intPart m] [KeyPart.intPart n]
     | o => o) from rfl]
  rw [show keyPartCmp (KeyPart.strPart (str ("c")))
      (KeyPart.strPart (str ("c"))) = Ordering.eq from by decide]
  show (match keyPartCmp (.intPart m) (.intPart n) with
    | .eq => keyCmp [] [] | o => o) = compare m n
  show (match compare m n with | .eq => Ordering.eq | o => o) = compare m n
  cases compare m n <;> rfl

theorem pathLe_mk (m n : Nat) :
    pathLe (mkChapterPath m) (mkChapterPath n) = true ↔ m ≤ n := by
  unfold pathLe
  rw [keyCmp_mk]
  simp only [ne_eq, decide_eq_true_eq]
  rw [Nat.compare_eq_gt]
  omega

theorem pairwise_orderedInsert_chap (x : Str) (l : List Str)
    (hx : ∃ n, x = mkChapterPath n) (hl : ∀ p ∈ l, ∃ n, p = mkChapterPath n)
    (hp : l.Pairwise (fun p q => chapNum p ≤ chapNum q)) :
    (List.orderedInsert (fun p q => pathLe p q = true) x l).Pairwise
      (fun p q => chapNum p ≤ chapNum q) := by
  induction l with
  | nil => simp [List.orderedInsert]
  | cons y ys ih =>
    obtain ⟨m, rfl⟩ := hx
    obtain ⟨k, rfl⟩ := hl y (by simp)
    obtain ⟨hy_all, hys⟩ := List.pairwise_cons.mp hp
    rw [List.orderedInsert]
    split
    case isTrue h =>
      have hmk : m ≤ k := (pathLe_mk m k).mp h
      rw [List.pairwise_cons]
      refine ⟨?_, hp⟩
      intro z hz
      rcases List.mem_cons.mp hz with rfl | hz2
      · rw [chapNum_mk, chapNum_mk]
        exact hmk
      · have := hy_all z hz2
        rw [chapNum_mk] at this ⊢
        omega
    case isFalse h =>
      have hkm : k ≤ m := by
        have := (pathLe_mk m k).not.mp h
        omega
      rw [List.pairwise_cons]
      constructor
      · intro z hz
        rcases (List.mem_orderedInsert (fun p q => pathLe p q = true)).mp hz with rfl | hz2
        · rw [chapNum_mk, chapNum_mk]
          exact hkm
        · exact hy_all z hz2
      · exact ih (fun p hp2 => hl p (List.mem_cons_of_mem _ hp2)) hys

theorem pairwise_sortChapterPaths (paths : List Str)
    (hfam : ∀ p ∈ paths, ∃ n, p = mkChapterPath n) :
    (sortChapterPaths paths).Pairwise (fun p q => chapNum p ≤ chapNum q) := by
  induction paths with
  | nil => simp [sortChapterPaths, List.insertionSort]
  | cons a l ih =>
    unfold sortChapterPaths
    rw [List.insertionSort]
    apply pairwise_orderedInsert_chap
    · exact hfam a (by simp)
    · intro p hp
      exact hfam p (List.mem_cons_of_mem a
        ((List.perm_insertionSort _ l).mem_iff.mp hp))
    · exact ih (fun p hp => hfam p (List.mem_cons_of_mem a hp))

/-- Claim C7, confirmed.  `gather_chapters` sorts with
`natural_sort_key`, which splits the stem around digit runs and compares
the runs numerically; for the family of names `c<digits>.txt` the sorted
order is by the embedded number, so `c1.txt, c2.txt, c10.txt` rather than
the lexicographic `c1, c10, c2`. -/
theorem c7_numeric_order (paths : List Str)
    (hfam : ∀ p ∈ paths, ∃ n, p = mkChapterPath n) :
    (sortChapterPaths paths).Pairwise (fun p q => chapNum p ≤ chapNum q) ∧
    (sortChapterPaths paths).Perm paths ∧
    sortChapterPaths [str ("c2.txt"), str ("c10.txt"), str ("c1.txt")] =
      [str ("c1.txt"), str ("c2.txt"), str ("c10.txt")] :=
  ⟨pairwise_sortChapterPaths paths hfam, sortChapterPaths_perm paths, by decide⟩

theorem c7_witness :
    (sortChapterPaths [str ("c2.txt"), str ("c10.txt"), str ("c1.txt")]).Pairwise
      (fun p q => chapNum p ≤ chapNum q) ∧
    (sortChapterPaths [str ("c2.txt"), str ("c10.txt"), str ("c1.txt")]).Perm
      [str ("c2.txt"), str ("c10.txt"), str ("c1.txt")] ∧
    sortChapterPaths [str ("c2.txt"), str ("c10.txt"), str ("c1.txt")] =
      [str ("c1.txt"), str ("c2.txt"), str ("c10.txt")] := by
  refine c7_numeric_order _ ?_
  intro p hp
  rcases List.mem_cons.mp hp with rfl | hp
  · exact ⟨2, by decide⟩
  rcases List.mem_cons.mp hp with rfl | hp
  · exact ⟨10, by decide⟩
  rcases List.mem_cons.mp hp with rfl | hp
  · exact ⟨1, by decide⟩
  · simp at hp

theorem isChapterHeaderB_self (w : Nat) (orn : Str) (i : Nat) (hi : i < 25) :
    isChapterHeaderB w orn (chapterHeader (i + 1) w orn) = true := by
  unfold isChapterHeaderB
  rw [List.any_eq_true]
  exact ⟨i, List.mem_range.mpr hi, by simp⟩

theorem filter_chapter_part (w : Nat) (orn : Str) (pIndent : Int) (rtl : Bool)
    (ls : Int) :
    ∀ (cs : List Str) (k : Nat), k + cs.length ≤ 25 →
    (∀ ch ∈ cs, isChapterHeaderB w orn
      (formatParagraphs ch w pIndent rtl ls) = false) →
    ((cs.enumFrom k).flatMap fun p =>
      [chapterHeader (p.1 + 1) w orn,
       formatParagraphs p.2 w pIndent rtl ls]).filter (isChapterHeaderB w orn)
      = (List.range' k cs.length).map (fun i => chapterHeader (i + 1) w orn) := by
  intro cs
  induction cs with
  | nil => intro k _ _; rfl
  | cons ch cs ih =>
    intro k hk hb
    rw [show (ch :: cs).enumFrom k = (k, ch) :: cs.enumFrom (k + 1) from rfl]
    rw [List.flatMap_cons]
    rw [List.filter_append]
    rw [show List.filter (isChapterHeaderB w orn)
        [chapterHeader (k + 1) w orn, formatParagraphs ch w pIndent rtl ls] =
      [chapterHeader (k + 1) w orn] from ?side]
    case side =>
      rw [List.filter_cons, List.filter_cons]
      rw [isChapterHeaderB_self w orn k (by simp at hk; omega)]
      rw [hb ch (by simp)]
      simp
    rw [ih (k + 1) (by simp at hk ⊢; omega)
      (fun c hc => hb c (List.mem_cons_of_mem _ hc))]
    rw [show List.range' k (ch :: cs).length = k :: List.range' (k + 1) cs.length
      from rfl]
    rfl

/-- Claim C5, confirmed.  For a manuscript with exactly 25 non-empty
chapters, the section list assembled by `format_novel` contains exactly
one section equal to each of the 25 chapter headers, in input order, and
`build_table_of_contents` lists the introduction as entry 1, chapter i as
entry i+1, and the conclusion as entry 27. -/
theorem c5_chapters_and_toc (title author introText : Str) (chapters : List Str)
    (conclusionText : Str) (tagline : Option Str) (width : Nat)
    (paragraphIndent : Int) (includeStats rtlAlign : Bool) (lineSpacing : Int)
    (ornament : Str) (epigraph : Option Str) (introTitle conclusionTitle : Str)
    (h25 : chapters.length = 25)
    (hTitle : isChapterHeaderB width ornament
      (buildTitlePage title author tagline epigraph width ornament) = false)
    (hToc : isChapterHeaderB width ornament
      (buildTableOfContents (str ("المقدمة")) (str ("الخاتمة")) width) = false)
    (hIntroH : isChapterHeaderB width ornament
      (sectionHeader (str ("المقدمة")) width '═' ornament) = false)
    (hIntroB : isChapterHeaderB width ornament
      (formatParagraphs introText width paragraphIndent rtlAlign lineSpacing) = false)
    (hStats : isChapterHeaderB width ornament
      (buildStatistics introText chapters conclusionText width) = false)
    (hConclH : isChapterHeaderB width ornament
      (sectionHeader (str ("الخاتمة")) width '═' ornament) = false)
    (hConclB : isChapterHeaderB width ornament
      (formatParagraphs conclusionText width paragraphIndent rtlAlign lineSpacing) = false)
    (hEndH : isChapterHeaderB width ornament
      (sectionHeader (str ("النهاية")) width '─' ornament) = false)
    (hEndW : isChapterHeaderB width ornament
      (centerBlock [str ("تمت")] width) = false)
    (hBodies : ∀ ch ∈ chapters, isChapterHeaderB width ornament
      (formatParagraphs ch width paragraphIndent rtlAlign lineSpacing) = false) :
    (formatNovelSections title author introText chapters conclusionText tagline
        width paragraphIndent includeStats rtlAlign lineSpacing ornament
        epigraph).filter (isChapterHeaderB width ornament) =
      (List.range 25).map (fun i => chapterHeader (i + 1) width ornament) ∧
    (tocLines introTitle conclusionTitle)[2]? =
      some (str ("1. ") ++ introTitle) ∧
    (∀ i, i < 25 →
      (tocLines introTitle conclusionTitle)[3 + i]? =
        some (natToStr (i + 2) ++ str (". الفصل ") ++ natToStr (i + 1))) ∧
    (tocLines introTitle conclusionTitle)[28]? =
      some (natToStr 27 ++ str (". ") ++ conclusionTitle) := by
  refine ⟨?_, ?_, ?_, ?_⟩
  · unfold formatNovelSections
    rw [List.filter_append, List.filter_append, List.filter_append]
    rw [show List.filter (isChapterHeaderB width ornament)
        [buildTitlePage title author tagline epigraph width ornament,
         buildTableOfContents (str ("المقدمة")) (str ("الخاتمة")) width,
         sectionHeader (str ("المقدمة")) width '═' ornament,
         formatParagraphs introText width paragraphIndent rtlAlign lineSpacing]
        = [] from ?s1]
    case s1 =>
      simp only [List.filter_cons, hTitle, hToc, hIntroH, hIntroB]
      simp
    rw [show List.filter (isChapterHeaderB width ornament)
        (if includeStats then
          [buildStatistics introText chapters conclusionText width]
         else []) = [] from ?s2]
    case s2 =>
      cases includeStats
      · rfl
      · simp only [if_true, reduceIte, List.filter_cons, hStats]
        simp
    rw [show chapters.enum = chapters.enumFrom 0 from rfl]
    rw [filter_chapter_part width ornament paragraphIndent rtlAlign lineSpacing
      chapters 0 (by omega) hBodies]
    rw [show List.filter (isChapterHeaderB width ornament)
        [sectionHeader (str ("الخاتمة")) width '═' ornament,
         formatParagraphs conclusionText width paragraphIndent rtlAlign lineSpacing,
         sectionHeader (str ("النهاية")) width '─' ornament,
         centerBlock [str ("تمت")] width] = [] from ?s3]
    case s3 =>
      simp only [List.filter_cons, hConclH, hConclB, hEndH, hEndW]
      simp
    rw [h25, List.range_eq_range']
    simp
  · rfl
  · intro i hi
    unfold tocLines
    have h3 : ([str ("جدول المحتويات"), [], str ("1. ") ++ introTitle] :
        List Str).length = 3 := rfl
    have hmaplen : ((List.range requiredChapterCount).map fun idx =>
        natToStr (idx + 2) ++ str (". الفصل ") ++ natToStr (idx + 1)).length =
        25 := by simp [requiredChapterCount]
    rw [List.getElem?_append, if_pos (by rw [List.length_append, h3, hmaplen]; omega)]
    rw [List.getElem?_append, if_neg (by rw [h3]; omega), h3]
    rw [show 3 + i - 3 = i from by omega]
    rw [List.getElem?_map, List.getElem?_range (by simpa [requiredChapterCount] using hi)]
    rfl
  · unfold tocLines
    have h3 : ([str ("جدول المحتويات"), [], str ("1. ") ++ introTitle] :
        List Str).length = 3 := rfl
    have hmaplen : ((List.range requiredChapterCount).map fun idx =>
        natToStr (idx + 2) ++ str (". الفصل ") ++ natToStr (idx + 1)).length =
        25 := by simp [requiredChapterCount]
    rw [List.getElem?_append, if_neg (by rw [List.length_append, h3, hmaplen]; omega)]
    rw [show (28 : Nat) - (([str ("جدول المحتويات"), [], str ("1. ") ++ introTitle] :
        List Str) ++ (List.range requiredChapterCount).map fun idx =>
        natToStr (idx + 2) ++ str (". الفصل ") ++ natToStr (idx + 1)).length = 0
      from by rw [List.length_append, h3, hmaplen]]
    rfl

theorem c5_witness :
    (formatNovelSections (str ("ع")) (str ("ك")) (str ("م"))
        (List.replicate 25 (str ("نص"))) (str ("خ")) none 6 0 false false 1
        (str ("✧")) none).filter (isChapterHeaderB 6 (str ("✧"))) =
      (List.range 25).map (fun i => chapterHeader (i + 1) 6 (str ("✧"))) ∧
    (tocLines (str ("المقدمة")) (str ("الخاتمة")))[2]? =
      some (str ("1. ") ++ str ("المقدمة")) ∧
    (∀ i, i < 25 →
      (tocLines (str ("المقدمة")) (str ("الخاتمة")))[3 + i]? =
        some (natToStr (i + 2) ++ str (". الفصل ") ++ natToStr (i + 1))) ∧
    (tocLines (str ("المقدمة")) (str ("الخاتمة")))[28]? =
      some (natToStr 27 ++ str (". ") ++ str ("الخاتمة")) :=
  c5_chapters_and_toc (str ("ع")) (str ("ك")) (str ("م"))
    (List.replicate 25 (str ("نص"))) (str ("خ")) none 6 0 false false 1
    (str ("✧")) none (str ("المقدمة")) (str ("الخاتمة"))
    (by decide) (by decide) (by decide) (by decide) (by decide) (by decide)
    (by decide) (by decide) (by decide) (by decide) (by decide)

theorem intercalate_cons_ne (sep : Str) (x : Str) (xs : List Str)
    (h : xs ≠ []) :
    List.intercalate sep (x :: xs) = x ++ (sep ++ List.intercalate sep xs) := by
  cases xs with
  | nil => exact absurd rfl h
  | cons y ys => simp [List.intercalate, List.intersperse]

theorem splitNL_replicate (k : Nat) (x : Str) :
    splitCharNL (List.replicate k '\n' ++ x) =
      List.replicate k [] ++ splitCharNL x := by
  induction k with
  | zero => rfl
  | succ n ih =>
    rw [List.replicate_succ, List.cons_append,
      show splitCharNL ('\n' :: (List.replicate n '\n' ++ x)) =
        [] :: splitCharNL (List.replicate n '\n' ++ x) from by
          simp [splitCharNL],
      ih, List.replicate_succ, List.cons_append]

theorem countP_replicate_nil (k : Nat) :
    (List.replicate k ([] : Str)).countP (fun l => l == []) = k := by
  induction k with
  | zero => rfl
  | succ n ih =>
    rw [List.replicate_succ, List.countP_cons, ih]
    simp

theorem countBlank_intercalate (m : Nat) (hm : 1 ≤ m) :
    ∀ blocks : List Str, blocks ≠ [] →
    (∀ b ∈ blocks, ∀ l ∈ splitCharNL b, l ≠ []) →
    (splitCharNL (List.intercalate (List.replicate m '\n') blocks)).countP
        (fun l => l == []) =
      (blocks.length - 1) * (m - 1) := by
  intro blocks
  induction blocks with
  | nil => intro h; exact absurd rfl h
  | cons b rest ih =>
    intro _ hlines
    cases rest with
    | nil =>
      rw [intercalate_single]
      rw [List.countP_eq_zero.mpr ?z]
      case z =>
        intro l hl
        simp only [beq_iff_eq]
        exact hlines b (by simp) l hl
      simp
    | cons c cs =>
      rw [intercalate_cons_ne _ _ _ (by simp)]
      rw [show List.replicate m '\n' ++
          List.intercalate (List.replicate m '\n') (c :: cs) =
        '\n' :: (List.replicate (m - 1) '\n' ++
          List.intercalate (List.replicate m '\n') (c :: cs)) from by
          rw [show m = (m - 1) + 1 from by omega, List.replicate_succ,
            List.cons_append]
          simp]
      rw [splitCharNL_append, List.countP_append, splitNL_replicate,
        List.countP_append]
      rw [List.countP_eq_zero.mpr ?z2]
      case z2 =>
        intro l hl
        simp only [beq_iff_eq]
        exact hlines b (by simp) l hl
      rw [countP_replicate_nil,
        ih (by simp) (fun x hx l hl => hlines x (by simp [hx]) l hl)]
      simp
      ring

/-- Claim C2, corrected.  The blocks are joined with the string
`"\n" * max(line_spacing, 1)`, which is `max(line_spacing, 1)` newline
characters and therefore `max(line_spacing, 1) - 1` blank lines between
consecutive paragraphs — one fewer than the claimed `s` blank lines.  For
`k` paragraphs whose wrapped lines are all non-empty, the output contains
exactly `(k - 1) * (max(s, 1) - 1)` blank lines. -/
theorem c2_blank_lines (t : Str) (w : Nat) (i : Int) (r : Bool) (s : Int)
    (hk : 2 ≤ (paragraphsOf t).length)
    (hlines : ∀ b ∈ (paragraphsOf t).map
        (wrappedBlock w (List.replicate (max i 0).toNat ' ') r),
      ∀ l ∈ splitCharNL b, l ≠ []) :
    blankLineCount (formatParagraphs t w i r s) =
      ((paragraphsOf t).length - 1) * ((max s 1).toNat - 1) := by
  have hm : 1 ≤ (max s 1).toNat := by
    have : (1 : Int) ≤ max s 1 := le_max_right s 1
    omega
  unfold blankLineCount formatParagraphs
  rw [countBlank_intercalate ((max s 1).toNat) hm _ ?bne hlines]
  · rw [List.length_map]
  case bne =>
    intro h
    have h2 := congrArg List.length h
    rw [List.length_map] at h2
    simp only [List.length_nil] at h2
    omega

theorem c2_counterexample :
    formatParagraphs (str ("a\n\nb")) 5 = str ("a\nb") ∧
    blankLineCount (formatParagraphs (str ("a\n\nb")) 5) = 0 := by
  constructor
  · decide
  · decide

theorem c2_witness :
    2 ≤ (paragraphsOf (str ("a\n\nb"))).length ∧
    blankLineCount (formatParagraphs (str ("a\n\nb")) 5 0 false 3) =
      ((paragraphsOf (str ("a\n\nb"))).length - 1) * ((max (3 : Int) 1).toNat - 1) :=
  ⟨by decide, c2_blank_lines (str ("a\n\nb")) 5 0 false 3 (by decide) (by decide)⟩

theorem splitChunks_ne_nil (s : Str) (h : s ≠ []) : splitChunks s ≠ [] := by
  cases s with
  | nil => exact absurd rfl h
  | cons c rest =>
    cases rest with
    | nil => simp [splitChunks]
    | cons d rest2 =>
      cases hs : splitChunks (d :: rest2) with
      | nil => simp [splitChunks, hs]
      | cons p ps =>
        simp only [splitChunks, hs]
        split <;> simp

theorem splitChunks_cons_cons (c d : Char) (rest : Str) :
    splitChunks (c :: d :: rest) =
      if isPyWs c = isPyWs d then
        (c :: (splitChunks (d :: rest)).headI) :: (splitChunks (d :: rest)).tail
      else [c] :: splitChunks (d :: rest) := by
  obtain ⟨p, ps, hx⟩ : ∃ p ps, splitChunks (d :: rest) = p :: ps := by
    cases h : splitChunks (d :: rest) with
    | nil => exact absurd h (splitChunks_ne_nil _ (by simp))
    | cons p ps => exact ⟨p, ps, rfl⟩
  simp only [splitChunks, hx]
  split <;> simp

theorem splitChunks_token_append (t u : Str) (htne : t ≠ [])
    (hch : ∀ c ∈ t, isPyWs c = false) (hune : u ≠ [])
    (hhead : ∃ c, u.head? = some c ∧ isPyWs c = true) :
    splitChunks (t ++ u) = t :: splitChunks u := by
  induction t with
  | nil => exact absurd rfl htne
  | cons c t' ih =>
    obtain ⟨d, hd, hdw⟩ := hhead
    cases t' with
    | nil =>
      cases u with
      | nil => exact absurd rfl hune
      | cons e u' =>
        have hew : isPyWs e = true := by
          have hde : e = d := by simpa using hd
          rw [hde]
          exact hdw
        rw [show ([c] ++ e :: u') = c :: e :: u' from rfl,
          splitChunks_cons_cons]
        rw [if_neg (by rw [hch c (by simp), hew]; simp)]
    | cons e t'' =>
      have hrec := ih (by simp) (fun x hx => hch x (by simp [hx]))
      rw [show ((c :: e :: t'') ++ u) = c :: ((e :: t'') ++ u) from rfl]
      have hcons : ∃ v, (e :: t'') ++ u = e :: v := ⟨t'' ++ u, rfl⟩
      obtain ⟨v, hv⟩ := hcons
      rw [hv, splitChunks_cons_cons, ← hv, hrec]
      rw [if_pos (by rw [hch c (by simp), hch e (by simp)])]
      simp

theorem splitChunks_sp_cons (u : Str) (hune : u ≠ [])
    (hhead : ∃ c, u.head? = some c ∧ isPyWs c = false) :
    splitChunks (' ' :: u) = [' '] :: splitChunks u := by
  obtain ⟨d, hd, hdw⟩ := hhead
  cases u with
  | nil => exact absurd rfl hune
  | cons e u' =>
    simp only [List.head?_cons, Option.some_inj] at hd
    subst hd
    rw [splitChunks_cons_cons]
    rw [if_neg (by rw [hdw]; simp [isPyWs])]

theorem head?_intercalate_sp (t : Str) (rest : List Str) (ht : t ≠ []) :
    ∃ c, (List.intercalate [' '] (t :: rest)).head? = some c ∧ c ∈ t := by
  cases t with
  | nil => exact absurd rfl ht
  | cons c cs =>
    cases rest with
    | nil =>
      rw [intercalate_single]
      exact ⟨c, rfl, by simp⟩
    | cons b rest2 =>
      rw [intercalate_cons_ne _ _ _ (by simp)]
      exact ⟨c, rfl, by simp⟩

theorem splitChunks_clean (toks : List Str) (hne : toks ≠ [])
    (hcl : ∀ tok ∈ toks, tok ≠ [] ∧ ∀ c ∈ tok, isPyWs c = false) :
    splitChunks (List.intercalate [' '] toks) = List.intersperse [' '] toks := by
  induction toks with
  | nil => exact absurd rfl hne
  | cons t rest ih =>
    cases rest with
    | nil =>
      rw [intercalate_single]
      rw [splitChunks_token (t) (hcl t (by simp)).1 (hcl t (by simp)).2]
      rfl
    | cons b rest2 =>
      rw [intercalate_cons_ne _ _ _ (by simp)]
      rw [show ([' '] ++ List.intercalate [' '] (b :: rest2)) =
        ' ' :: List.intercalate [' '] (b :: rest2) from rfl]
      rw [splitChunks_token_append t (' ' :: List.intercalate [' '] (b :: rest2))
        (hcl t (by simp)).1 (hcl t (by simp)).2 (by simp)
        ⟨' ', rfl, by simp [isPyWs]⟩]
      rw [splitChunks_sp_cons _ ?jne ?jhead]
      case jne =>
        intro hcon
        obtain ⟨c, hc, _⟩ := head?_intercalate_sp b rest2 (hcl b (by simp)).1
        rw [hcon] at hc
        simp at hc
      case jhead =>
        obtain ⟨c, hc, hcm⟩ := head?_intercalate_sp b rest2 (hcl b (by simp)).1
        exact ⟨c, hc, (hcl b (by simp)).2 c hcm⟩
      rw [ih (by simp) (fun tok htok => hcl tok (by simp [htok]))]
      rw [List.intersperse_cons₂]

theorem intersperse_decomp_full (g : List Str) (t : Str) :
    List.intersperse [' '] (t :: g) =
      t :: g.flatMap fun tok => [[' '], tok] := by
  induction g generalizing t with
  | nil => rfl
  | cons a g' ih =>
    rw [List.intersperse_cons₂, ih a]
    rfl

theorem intersperse_decomp (g rest : List Str) (t : Str) (hrest : rest ≠ []) :
    List.intersperse [' '] (t :: (g ++ rest)) =
      (t :: g.flatMap fun tok => [[' '], tok]) ++
        ([' '] :: List.intersperse [' '] rest) := by
  induction g generalizing t with
  | nil =>
    cases rest with
    | nil => exact absurd rfl hrest
    | cons r rs =>
      rw [List.nil_append, List.intersperse_cons₂]
      rfl
  | cons a g' ih =>
    rw [show ((a :: g') ++ rest) = a :: (g' ++ rest) from rfl,
      List.intersperse_cons₂, ih a]
    rfl

theorem chunkMeasure_append (a b : List Str) :
    chunkMeasure (a ++ b) = chunkMeasure a + chunkMeasure b := by
  unfold chunkMeasure
  rw [List.map_append, List.sum_append, List.length_append]
  ring

theorem flatten_group (t : Str) (g : List Str) :
    (t :: g.flatMap fun tok => [[' '], tok]).flatten =
      List.intercalate [' '] (t :: g) := by
  induction g generalizing t with
  | nil => simp [intercalate_single]
  | cons a g' ih =>
    rw [intercalate_cons_ne _ _ _ (by simp)]
    rw [show (t :: (a :: g').flatMap fun tok => [[' '], tok]) =
      t :: [' '] :: (a :: g'.flatMap fun tok => [[' '], tok]) from rfl]
    rw [List.flatten_cons, List.flatten_cons, ih a]

theorem flatten_group2 (t : Str) (g : List Str) :
    t ++ (g.flatMap fun tok => [[' '], tok]).flatten =
      List.intercalate [' '] (t :: g) := by
  rw [← flatten_group, List.flatten_cons]

theorem getLast?_group (t : Str) (g : List Str) (P : Str → Prop) (hP : P t)
    (hg : ∀ x ∈ g, P x) :
    ∃ u, (t :: g.flatMap fun tok => [[' '], tok]).getLast? = some u ∧ P u := by
  induction g generalizing t with
  | nil => exact ⟨t, rfl, hP⟩
  | cons a g' ih =>
    obtain ⟨u, hu, hPu⟩ := ih a (hg a (by simp))
      (fun x hx => hg x (by simp [hx]))
    refine ⟨u, ?_, hPu⟩
    rw [show (t :: (a :: g').flatMap fun tok => [[' '], tok]) =
      [t, [' ']] ++ (a :: g'.flatMap fun tok => [[' '], tok]) from rfl]
    rw [List.getLast?_append, hu]
    rfl

theorem dropTrailingWs_group (t : Str) (g : List Str)
    (ht : chunkIsWs t = false) (hg : ∀ x ∈ g, chunkIsWs x = false) :
    dropTrailingWs (t :: g.flatMap fun tok => [[' '], tok]) =
      t :: g.flatMap fun tok => [[' '], tok] := by
  obtain ⟨u, hu, hPu⟩ := getLast?_group t g (fun x => chunkIsWs x = false) ht hg
  unfold dropTrailingWs
  rw [hu]
  simp [hPu]

theorem dropTrailingWs_group_sp (l : List Str) :
    dropTrailingWs (l ++ [[' ']]) = l := by
  unfold dropTrailingWs
  rw [List.getLast?_concat]
  simp [show chunkIsWs [' '] = true from by decide, List.dropLast_concat]

theorem greedyTake_sp_tokens (w : Nat) :
    ∀ (ts : List Str) (t : Str) (l : Int),
    (∀ tok ∈ t :: ts, tok ≠ [] ∧ tok.length ≤ w ∧
      ∀ c ∈ tok, isPyWs c = false) →
    ∃ (g rest : List Str),
      t :: ts = g ++ rest ∧
      ((rest = [] ∧
         greedyTake w l ([' '] :: List.intersperse [' '] (t :: ts)) =
           (g.flatMap fun tok => [[' '], tok], [])) ∨
       (rest ≠ [] ∧
         greedyTake w l ([' '] :: List.intersperse [' '] (t :: ts)) =
           (g.flatMap fun tok => [[' '], tok],
            [' '] :: List.intersperse [' '] rest)) ∨
       (rest ≠ [] ∧
         greedyTake w l ([' '] :: List.intersperse [' '] (t :: ts)) =
           ((g.flatMap fun tok => [[' '], tok]) ++ [[' ']],
            List.intersperse [' '] rest))) := by
  intro ts
  induction ts with
  | nil =>
    intro t l _
    by_cases hsp : l + ([' '] : Str).length ≤ (w : Int)
    · rw [greedyTake_cons_fits _ _ _ _ hsp]
      by_cases ht : (l + ([' '] : Str).length) + t.length ≤ (w : Int)
      · rw [show List.intersperse [' '] [t] = [t] from rfl,
          greedyTake_cons_fits _ _ _ _ ht, greedyTake_nil]
        exact ⟨[t], [], by simp, Or.inl ⟨rfl, rfl⟩⟩
      · rw [show List.intersperse [' '] [t] = [t] from rfl,
          greedyTake_cons_nofit _ _ _ _ ht]
        exact ⟨[], [t], by simp, Or.inr (Or.inr ⟨by simp, rfl⟩)⟩
    · rw [greedyTake_cons_nofit _ _ _ _ hsp]
      exact ⟨[], [t], by simp, Or.inr (Or.inl ⟨by simp, rfl⟩)⟩
  | cons t2 ts' ih =>
    intro t l hcl
    by_cases hsp : l + ([' '] : Str).length ≤ (w : Int)
    · rw [greedyTake_cons_fits _ _ _ _ hsp]
      rw [List.intersperse_cons₂]
      by_cases ht : (l + ([' '] : Str).length) + t.length ≤ (w : Int)
      · rw [greedyTake_cons_fits _ _ _ _ ht]
        obtain ⟨g, rest, hgr, hshape⟩ := ih t2 ((l + ([' '] : Str).length) + t.length)
          (fun tok htok => hcl tok (by simp at htok ⊢; tauto))
        refine ⟨t :: g, rest, by simp [hgr], ?_⟩
        rcases hshape with ⟨h1, h2⟩ | ⟨h1, h2⟩ | ⟨h1, h2⟩
        · exact Or.inl ⟨h1, by rw [h2]; simp⟩
        · exact Or.inr (Or.inl ⟨h1, by rw [h2]; simp⟩)
        · exact Or.inr (Or.inr ⟨h1, by rw [h2]; simp⟩)
      · rw [greedyTake_cons_nofit _ _ _ _ ht]
        refine ⟨[], t :: t2 :: ts', by simp, Or.inr (Or.inr ⟨by simp, ?_⟩)⟩
        rw [List.intersperse_cons₂]
        rfl
    · rw [greedyTake_cons_nofit _ _ _ _ hsp]
      refine ⟨[], t :: t2 :: ts', by simp, Or.inr (Or.inl ⟨by simp, rfl⟩)⟩

theorem wrapHandle_nil (e : Int) (cur : List Str) :
    wrapHandle e cur [] = (cur, []) := rfl

theorem wrapHandle_small (e : Int) (cur : List Str) (d : Str) (ds : List Str)
    (h : ¬((d.length : Int) > e)) :
    wrapHandle e cur (d :: ds) = (cur, d :: ds) := by
  simp only [wrapHandle, if_neg h]

theorem wrapFuel_clean (w : Nat) (hw : 1 ≤ w) :
    ∀ (n : Nat) (toks : List Str) (pre : Bool) (lines : List Str) (fuel : Nat),
    toks.length ≤ n → toks ≠ [] →
    (∀ tok ∈ toks, tok ≠ [] ∧ tok.length ≤ w ∧ ∀ c ∈ tok, isPyWs c = false) →
    chunkMeasure ((if pre then [[' ']] else []) ++ List.intersperse [' '] toks)
      < fuel →
    (pre = true → lines ≠ []) →
    ∃ groups : List (List Str),
      wrapFuel w [] fuel
          ((if pre then [[' ']] else []) ++ List.intersperse [' '] toks) lines
        = lines ++ groups.map (List.intercalate [' ']) ∧
      groups.flatten = toks ∧ ∀ g ∈ groups, g ≠ [] := by
  intro n
  induction n with
  | zero =>
    intro toks pre lines fuel hn hne
    intro _ _ _
    exact absurd (List.eq_nil_of_length_eq_zero (Nat.le_zero.mp hn)) hne
  | succ n ih =>
    intro toks pre lines fuel hn hne hcl hfuel hpre
    obtain ⟨t, ts, rfl⟩ : ∃ t ts, toks = t :: ts := by
      cases toks with
      | nil => exact absurd rfl hne
      | cons t ts => exact ⟨t, ts, rfl⟩
    have htok := hcl t (by simp)
    have hcwt : chunkIsWs t = false := chunkIsWs_false t htok.1
      (fun c hc => htok.2.2 c hc)
    have hμpos : 2 ≤ chunkMeasure ((if pre then [[' ']] else []) ++
        List.intersperse [' '] (t :: ts)) := by
      have h1 : chunkMeasure (List.intersperse [' '] (t :: ts)) =
          chunkMeasure ((if pre then [[' ']] else []) ++
            List.intersperse [' '] (t :: ts)) -
          chunkMeasure (if pre then [[' ']] else []) := by
        rw [chunkMeasure_append]
        omega
      have h2 : 2 ≤ chunkMeasure (List.intersperse [' '] (t :: ts)) := by
        cases ts with
        | nil =>
          show 2 ≤ chunkMeasure [t]
          unfold chunkMeasure
          have : 1 ≤ t.length := by
            cases hcase : t with
            | nil => exact absurd hcase htok.1
            | cons a b => simp
          simp
          omega
        | cons t2 ts' =>
          rw [List.intersperse_cons₂]
          unfold chunkMeasure
          simp
          omega
      rw [h1] at h2
      omega
    obtain ⟨f, rfl⟩ : ∃ f, fuel = f + 1 := ⟨fuel - 1, by omega⟩
    -- one step of the loop
    have hchunks : ∃ c cs, (if pre then [[' ']] else []) ++
        List.intersperse [' '] (t :: ts) = c :: cs ∧
        wrapDropLead lines c cs = List.intersperse [' '] (t :: ts) := by
      cases hp : pre with
      | true =>
        refine ⟨[' '], List.intersperse [' '] (t :: ts), by simp, ?_⟩
        unfold wrapDropLead
        rw [if_pos ⟨hpre hp, by decide⟩]
      | false =>
        cases ts with
        | nil =>
          refine ⟨t, [], by simp, ?_⟩
          unfold wrapDropLead
          rw [if_neg (by simp [hcwt])]
          rfl
        | cons t2 ts' =>
          refine ⟨t, [' '] :: List.intersperse [' '] (t2 :: ts'),
            by simp [List.intersperse_cons₂], ?_⟩
          unfold wrapDropLead
          rw [if_neg (by simp [hcwt])]
          rw [List.intersperse_cons₂]
    obtain ⟨c, cs, hsplit, hdrop⟩ := hchunks
    rw [hsplit]
    rw [show wrapFuel w [] (f + 1) (c :: cs) lines =
      (match wrapStep w [] c cs lines with
       | (rest, lines2) => wrapFuel w [] f rest lines2) from rfl]
    have hfit : (0 : Int) + (t.length : Int) ≤ ((w : Nat) : Int) := by
      have := htok.2.1
      omega
    cases ts with
    | nil =>
      have hg : greedyTake ((w : Nat) : Int) 0 (List.intersperse [' '] [t]) =
          ([t], []) := by
        rw [show List.intersperse [' '] [t] = [t] from rfl,
          greedyTake_cons_fits _ _ _ _ hfit, greedyTake_nil]
      have hdt : dropTrailingWs [t] = [t] := by
        have h0 := dropTrailingWs_group t [] hcwt (by simp)
        simpa using h0
      have hstep : wrapStep w [] c cs lines = ([], lines ++ [t]) := by
        simp only [wrapStep, hdrop, List.length_nil, Nat.cast_zero,
          Int.sub_zero, hg, wrapHandle_nil, hdt]
        simp
      rw [hstep]
      refine ⟨[[t]], ?_, by simp, by simp⟩
      show wrapFuel w [] f [] (lines ++ [t]) =
        lines ++ [[t]].map (List.intercalate [' '])
      rw [wrapFuel_nil]
      simp [intercalate_single]
    | cons t2 ts' =>
      have hclts : ∀ tok ∈ t2 :: ts', tok ≠ [] ∧ tok.length ≤ w ∧
          ∀ c2 ∈ tok, isPyWs c2 = false :=
        fun tok htk => hcl tok (by simp at htk ⊢; tauto)
      obtain ⟨g, rest, hgr, hsh⟩ :=
        greedyTake_sp_tokens w ts' t2 (0 + (t.length : Int)) hclts
      have hgmem : ∀ x ∈ g, x ∈ t2 :: ts' := by
        intro x hx
        rw [hgr]
        exact List.mem_append_left _ hx
      have hrmem : ∀ x ∈ rest, x ∈ t2 :: ts' := by
        intro x hx
        rw [hgr]
        exact List.mem_append_right _ hx
      have hgws : ∀ x ∈ g, chunkIsWs x = false := by
        intro x hx
        have h2 := hclts x (hgmem x hx)
        exact chunkIsWs_false x h2.1 h2.2.2
      have hdtg : dropTrailingWs (t :: g.flatMap fun tok => [[' '], tok]) =
          t :: g.flatMap fun tok => [[' '], tok] :=
        dropTrailingWs_group t g hcwt hgws
      have hInter : List.intersperse [' '] (t :: t2 :: ts') =
          t :: [' '] :: List.intersperse [' '] (t2 :: ts') := by
        rw [List.intersperse_cons₂]
      rcases hsh with ⟨hre, h2⟩ | ⟨hre, h2⟩ | ⟨hre, h2⟩
      · -- everything consumed: single final line
        have hg2 : greedyTake ((w : Nat) : Int) 0
            (List.intersperse [' '] (t :: t2 :: ts')) =
            (t :: g.flatMap fun tok => [[' '], tok], []) := by
          rw [hInter, greedyTake_cons_fits _ _ _ _ hfit, h2]
        have hstep : wrapStep w [] c cs lines =
            ([], lines ++ [List.intercalate [' '] (t :: g)]) := by
          simp only [wrapStep, hdrop, List.length_nil, Nat.cast_zero,
            Int.sub_zero, hg2, wrapHandle_nil, hdtg]
          simp [flatten_group2]
        rw [hstep]
        refine ⟨[t :: g], ?_, by simp [hgr, hre], by simp⟩
        show wrapFuel w [] f []
            (lines ++ [List.intercalate [' '] (t :: g)]) = _
        rw [wrapFuel_nil]
        simp
      · -- stopped before the separator
        have hg2 : greedyTake ((w : Nat) : Int) 0
            (List.intersperse [' '] (t :: t2 :: ts')) =
            (t :: g.flatMap fun tok => [[' '], tok],
              [' '] :: List.intersperse [' '] rest) := by
          rw [hInter, greedyTake_cons_fits _ _ _ _ hfit, h2]
        have hstep : wrapStep w [] c cs lines =
            ([' '] :: List.intersperse [' '] rest,
              lines ++ [List.intercalate [' '] (t :: g)]) := by
          simp only [wrapStep, hdrop, List.length_nil, Nat.cast_zero,
            Int.sub_zero, hg2,
            wrapHandle_small ((w : Nat) : Int)
              (t :: g.flatMap fun tok => [[' '], tok]) [' ']
              (List.intersperse [' '] rest) (by simp; omega), hdtg]
          simp [flatten_group2]
        rw [hstep]
        have hdecomp : List.intersperse [' '] (t :: t2 :: ts') =
            (t :: g.flatMap fun tok => [[' '], tok]) ++
              ([' '] :: List.intersperse [' '] rest) := by
          rw [show (t :: t2 :: ts') = t :: (g ++ rest) from by rw [hgr]]
          exact intersperse_decomp g rest t hre
        have hμ : chunkMeasure ([[' ']] ++ List.intersperse [' '] rest) < f := by
          have hb : chunkMeasure (List.intersperse [' '] (t :: t2 :: ts')) ≤
              chunkMeasure ((if pre then [[' ']] else []) ++
                List.intersperse [' '] (t :: t2 :: ts')) := by
            rw [chunkMeasure_append]
            omega
          have hb2 : chunkMeasure (List.intersperse [' '] (t :: t2 :: ts')) =
              chunkMeasure (t :: g.flatMap fun tok => [[' '], tok]) +
                chunkMeasure ([' '] :: List.intersperse [' '] rest) := by
            conv_lhs => rw [hdecomp]
            rw [chunkMeasure_append]
          have hμt : 2 ≤ chunkMeasure (t :: g.flatMap fun tok => [[' '], tok]) := by
            have ht1 : 1 ≤ t.length := by
              cases hcase : t with
              | nil => exact absurd hcase htok.1
              | cons a b => simp
            unfold chunkMeasure
            simp
            omega
          have hsame : chunkMeasure ([[' ']] ++ List.intersperse [' '] rest) =
              chunkMeasure ([' '] :: List.intersperse [' '] rest) := rfl
          omega
        obtain ⟨groups2, hwf2, hfl2, hne2⟩ := ih rest true
          (lines ++ [List.intercalate [' '] (t :: g)]) f
          (by
            have := hn
            simp at this ⊢
            have hlen := congrArg List.length hgr
            simp at hlen
            omega)
          hre
          (fun tok htk => hclts tok (hrmem tok htk))
          (by simpa using hμ)
          (by simp)
        refine ⟨(t :: g) :: groups2, ?_, ?_, ?_⟩
        · show wrapFuel w [] f ([' '] :: List.intersperse [' '] rest)
            (lines ++ [List.intercalate [' '] (t :: g)]) = _
          rw [show ([' '] :: List.intersperse [' '] rest) =
            (if true then [[' ']] else []) ++ List.intersperse [' '] rest
            from by simp]
          rw [hwf2]
          simp
        · simp [hfl2, hgr]
        · intro g2 hg2m
          rcases List.mem_cons.mp hg2m with rfl | hg2m
          · simp
          · exact hne2 g2 hg2m
      · -- separator consumed, stopped at a word
        obtain ⟨r1, rs, rfl⟩ : ∃ r1 rs, rest = r1 :: rs := by
          cases rest with
          | nil => exact absurd rfl hre
          | cons r1 rs => exact ⟨r1, rs, rfl⟩
        obtain ⟨tl, htl⟩ : ∃ tl, List.intersperse [' '] (r1 :: rs) = r1 :: tl := by
          cases rs with
          | nil => exact ⟨[], rfl⟩
          | cons r2 rs2 =>
            exact ⟨[' '] :: List.intersperse [' '] (r2 :: rs2), by
              rw [List.intersperse_cons₂]⟩
        have hr1 := hclts r1 (hrmem r1 (by simp))
        have hg2 : greedyTake ((w : Nat) : Int) 0
            (List.intersperse [' '] (t :: t2 :: ts')) =
            (t :: ((g.flatMap fun tok => [[' '], tok]) ++ [[' ']]),
              List.intersperse [' '] (r1 :: rs)) := by
          rw [hInter, greedyTake_cons_fits _ _ _ _ hfit, h2]
        have hdt3 : dropTrailingWs
            (t :: ((g.flatMap fun tok => [[' '], tok]) ++ [[' ']])) =
            t :: g.flatMap fun tok => [[' '], tok] := by
          rw [show (t :: ((g.flatMap fun tok => [[' '], tok]) ++ [[' ']])) =
            (t :: g.flatMap fun tok => [[' '], tok]) ++ [[' ']] from by simp]
          exact dropTrailingWs_group_sp _
        have hstep : wrapStep w [] c cs lines =
            (List.intersperse [' '] (r1 :: rs),
              lines ++ [List.intercalate [' '] (t :: g)]) := by
          simp only [wrapStep, hdrop, List.length_nil, Nat.cast_zero,
            Int.sub_zero, hg2, htl,
            wrapHandle_small ((w : Nat) : Int)
              (t :: ((g.flatMap fun tok => [[' '], tok]) ++ [[' ']])) r1 tl
              (by
                have := hr1.2.1
                simp
                omega), hdt3]
          simp [flatten_group2, ← htl]
        rw [hstep]
        have hdecomp : List.intersperse [' '] (t :: t2 :: ts') =
            (t :: g.flatMap fun tok => [[' '], tok]) ++
              ([' '] :: List.intersperse [' '] (r1 :: rs)) := by
          rw [show (t :: t2 :: ts') = t :: (g ++ r1 :: rs) from by rw [hgr]]
          exact intersperse_decomp g (r1 :: rs) t (by simp)
        have hμ : chunkMeasure (([] : List Str) ++
            List.intersperse [' '] (r1 :: rs)) < f := by
          have hb : chunkMeasure (List.intersperse [' '] (t :: t2 :: ts')) ≤
              chunkMeasure ((if pre then [[' ']] else []) ++
                List.intersperse [' '] (t :: t2 :: ts')) := by
            rw [chunkMeasure_append]
            omega
          have hb2 : chunkMeasure (List.intersperse [' '] (t :: t2 :: ts')) =
              chunkMeasure (t :: g.flatMap fun tok => [[' '], tok]) +
                (chunkMeasure ([[' ']] : List Str) +
                  chunkMeasure (List.intersperse [' '] (r1 :: rs))) := by
            conv_lhs => rw [hdecomp]
            rw [show ([' '] :: List.intersperse [' '] (r1 :: rs)) =
              ([[' ']] : List Str) ++ List.intersperse [' '] (r1 :: rs) from rfl]
            rw [chunkMeasure_append, chunkMeasure_append]
          have hμt : 2 ≤ chunkMeasure (t :: g.flatMap fun tok => [[' '], tok]) := by
            have ht1 : 1 ≤ t.length := by
              cases hcase : t with
              | nil => exact absurd hcase htok.1
              | cons a b => simp
            unfold chunkMeasure
            simp
            omega
          simp only [List.nil_append]
          omega
        obtain ⟨groups2, hwf2, hfl2, hne2⟩ := ih (r1 :: rs) false
          (lines ++ [List.intercalate [' '] (t :: g)]) f
          (by
            have := hn
            simp at this ⊢
            have hlen := congrArg List.length hgr
            simp at hlen
            omega)
          (by simp)
          (fun tok htk => hclts tok (hrmem tok htk))
          (by simpa using hμ)
          (by simp)
        refine ⟨(t :: g) :: groups2, ?_, ?_, ?_⟩
        · show wrapFuel w [] f (List.intersperse [' '] (r1 :: rs))
            (lines ++ [List.intercalate [' '] (t :: g)]) = _
          rw [show (List.intersperse [' '] (r1 :: rs)) =
            (if false then [[' ']] else []) ++ List.intersperse [' '] (r1 :: rs)
            from by simp]
          rw [hwf2]
          simp
        · simp [hfl2, hgr]
        · intro g2 hg2m
          rcases List.mem_cons.mp hg2m with rfl | hg2m
          · simp
          · exact hne2 g2 hg2m

theorem sdn_ne_nil (s : Str) : splitOnDoubleNewline s ≠ [] := by
  cases s with
  | nil => simp [splitOnDoubleNewline]
  | cons c rest =>
    cases rest with
    | nil => simp [splitOnDoubleNewline]
    | cons d rest2 =>
      unfold splitOnDoubleNewline
      by_cases h : c = '\n' ∧ d = '\n'
      · rw [if_pos h]
        simp
      · rw [if_neg h]
        cases hs : splitOnDoubleNewline (d :: rest2) with
        | nil => simp
        | cons p ps => simp

theorem hasDoubleNL_no_nl (s : Str) (h : '\n' ∉ s) : hasDoubleNL s = false := by
  induction s with
  | nil => rfl
  | cons c rest ih =>
    cases rest with
    | nil => rfl
    | cons d rest2 =>
      show ((c = '\n' && d = '\n') || hasDoubleNL (d :: rest2)) = false
      rw [ih (fun hm => h (List.mem_cons_of_mem c hm))]
      have hc : ¬(c = '\n') := fun hc => h (by simp [hc])
      simp [hc]

theorem hasDoubleNL_append (a b : Str) (ha : hasDoubleNL a = false)
    (hb : hasDoubleNL b = false)
    (hbd : ∀ x y, a.getLast? = some x → b.head? = some y →
      ¬(x = '\n' ∧ y = '\n')) :
    hasDoubleNL (a ++ b) = false := by
  induction a with
  | nil => simpa using hb
  | cons x xs ih =>
    cases xs with
    | nil =>
      cases b with
      | nil => rfl
      | cons y b' =>
        show ((x = '\n' && y = '\n') || hasDoubleNL (y :: b')) = false
        rw [hb]
        have := hbd x y rfl rfl
        by_cases hx : x = '\n'
        · by_cases hy : y = '\n'
          · exact absurd ⟨hx, hy⟩ this
          · simp [hy]
        · simp [hx]
    | cons y xs' =>
      have hstep : hasDoubleNL (x :: y :: xs') =
          ((x = '\n' && y = '\n') || hasDoubleNL (y :: xs')) := rfl
      rw [hstep] at ha
      have h1 : (x = '\n' && y = '\n') = false := by
        cases hp : (x = '\n' && y = '\n')
        · rfl
        · rw [hp] at ha; simp at ha
      have h2 : hasDoubleNL (y :: xs') = false := by
        cases hp : hasDoubleNL (y :: xs')
        · rfl
        · rw [hp] at ha; simp at ha
      have ihy := ih h2 (by
        intro u v hu hv
        exact hbd u v (by rw [← hu]; rfl) hv)
      show ((x = '\n' && y = '\n') || hasDoubleNL ((y :: xs') ++ b)) = false
      rw [h1, ihy]
      rfl

theorem sdn_no_double (s : Str) (h : hasDoubleNL s = false) :
    splitOnDoubleNewline s = [s] := by
  induction s with
  | nil => rfl
  | cons c rest ih =>
    cases rest with
    | nil => rfl
    | cons d rest2 =>
      have hstep : hasDoubleNL (c :: d :: rest2) =
          ((c = '\n' && d = '\n') || hasDoubleNL (d :: rest2)) := rfl
      rw [hstep] at h
      have h1 : ¬(c = '\n' ∧ d = '\n') := by
        intro hcon
        rw [hcon.1, hcon.2] at h
        simp at h
      have h2 : hasDoubleNL (d :: rest2) = false := by
        cases hp : hasDoubleNL (d :: rest2)
        · rfl
        · rw [hp] at h; simp at h
      unfold splitOnDoubleNewline
      rw [if_neg h1, ih h2]

theorem sdn_append (b rest : Str) (hb : hasDoubleNL b = false)
    (hbd : ∀ x y, b.getLast? = some x → rest.head? = some y →
      ¬(x = '\n' ∧ y = '\n')) :
    ∃ p ps, splitOnDoubleNewline rest = p :: ps ∧
      splitOnDoubleNewline (b ++ rest) = (b ++ p) :: ps := by
  induction b with
  | nil =>
    cases hs : splitOnDoubleNewline rest with
    | nil => exact absurd hs (sdn_ne_nil rest)
    | cons p ps => exact ⟨p, ps, rfl, by simpa using hs⟩
  | cons x xs ih =>
    cases xs with
    | nil =>
      cases rest with
      | nil => exact ⟨[], [], rfl, by simp [splitOnDoubleNewline]⟩
      | cons y rt =>
        have hxy : ¬(x = '\n' ∧ y = '\n') := hbd x y rfl rfl
        cases hs : splitOnDoubleNewline (y :: rt) with
        | nil => exact absurd hs (sdn_ne_nil _)
        | cons p ps =>
          refine ⟨p, ps, rfl, ?_⟩
          show splitOnDoubleNewline (x :: y :: rt) = (x :: p) :: ps
          simp only [splitOnDoubleNewline, if_neg hxy, hs]
    | cons y xs' =>
      have hstep : hasDoubleNL (x :: y :: xs') =
          ((x = '\n' && y = '\n') || hasDoubleNL (y :: xs')) := rfl
      rw [hstep] at hb
      have h1 : ¬(x = '\n' ∧ y = '\n') := by
        intro hcon
        rw [hcon.1, hcon.2] at hb
        simp at hb
      have h2 : hasDoubleNL (y :: xs') = false := by
        cases hp : hasDoubleNL (y :: xs')
        · rfl
        · rw [hp] at hb; simp at hb
      obtain ⟨p, ps, hsr, hsa⟩ := ih h2 (by
        intro u v hu hv
        exact hbd u v (by rw [← hu]; rfl) hv)
      refine ⟨p, ps, hsr, ?_⟩
      show splitOnDoubleNewline (x :: y :: (xs' ++ rest)) = _
      unfold splitOnDoubleNewline
      rw [if_neg h1]
      rw [show y :: (xs' ++ rest) = (y :: xs') ++ rest from rfl, hsa]
      rfl

theorem pyStrip_cons_ws (c : Char) (s : Str) (hc : isPyWs c = true) :
    pyStrip (c :: s) = pyStrip s := by
  unfold pyStrip pyLStrip
  rw [List.dropWhile_cons, if_pos hc]

theorem paragraphsOf_sep_cons :
    ∀ (m : Nat) (t : Str), (∀ c, t.head? = some c → ¬(c = '\n')) →
    paragraphsOf (List.replicate m '\n' ++ t) = paragraphsOf t := by
  intro m
  induction m using Nat.twoStepInduction with
  | zero =>
    intro t hh
    simp
  | one =>
    intro t hh
    cases t with
    | nil => rfl
    | cons c t' =>
      have hc : ¬('\n' = '\n' ∧ c = '\n') := by
        intro hcon
        exact hh c rfl hcon.2
      cases hs : splitOnDoubleNewline (c :: t') with
      | nil => exact absurd hs (sdn_ne_nil _)
      | cons p ps =>
        have hsdn : splitOnDoubleNewline ('\n' :: c :: t') = ('\n' :: p) :: ps := by
          unfold splitOnDoubleNewline
          rw [if_neg hc, hs]
        have hrepl : List.replicate 1 '\n' ++ (c :: t') = '\n' :: c :: t' := rfl
        unfold paragraphsOf
        rw [hrepl, hsdn, hs, List.filterMap_cons, List.filterMap_cons]
        rw [pyStrip_cons_ws '\n' p (by decide)]
  | more k ih ih2 =>
    intro t hh
    have hrepl : List.replicate (k + 2) '\n' ++ t =
        '\n' :: '\n' :: (List.replicate k '\n' ++ t) := by
      rw [show k + 2 = (k + 1) + 1 from rfl]
      rw [List.replicate_succ, List.replicate_succ]
      rfl
    have hsdn : splitOnDoubleNewline ('\n' :: '\n' :: (List.replicate k '\n' ++ t)) =
        [] :: splitOnDoubleNewline (List.replicate k '\n' ++ t) := by
      conv_lhs => unfold splitOnDoubleNewline
      rw [if_pos ⟨rfl, rfl⟩]
    have hk := ih t hh
    unfold paragraphsOf at hk ⊢
    rw [hrepl, hsdn, List.filterMap_cons]
    simpa using hk

theorem head?_intercalate (sep : Str) (b : Str) (bs : List Str) (hb : b ≠ []) :
    (List.intercalate sep (b :: bs)).head? = b.head? := by
  cases b with
  | nil => exact absurd rfl hb
  | cons c b' =>
    cases bs with
    | nil => rw [intercalate_single]
    | cons b2 bs' =>
      rw [intercalate_cons_ne _ _ _ (by simp)]
      rfl

theorem paragraphsOf_intercalate (m : Nat) (hm : 2 ≤ m) :
    ∀ (blocks : List Str),
    (∀ b ∈ blocks, b ≠ [] ∧ hasDoubleNL b = false ∧ pyStrip b = b ∧
      (∀ c, b.getLast? = some c → ¬(c = '\n'))) →
    (∀ b ∈ blocks, ∀ c, b.head? = some c → ¬(c = '\n')) →
    paragraphsOf (List.intercalate (List.replicate m '\n') blocks) = blocks := by
  intro blocks
  induction blocks with
  | nil =>
    intro hcl hhd
    rfl
  | cons b bs ih =>
    intro hcl hhd
    obtain ⟨hbne, hbdnl, hbstrip, hblast⟩ := hcl b (by simp)
    cases bs with
    | nil =>
      rw [intercalate_single]
      unfold paragraphsOf
      rw [sdn_no_double b hbdnl, List.filterMap_cons]
      simp [hbstrip, hbne]
    | cons b2 bs' =>
      obtain ⟨k, hk⟩ : ∃ k, m = k + 2 := ⟨m - 2, by omega⟩
      have hb2ne : b2 ≠ [] := (hcl b2 (by simp)).1
      have hthead : ∀ c,
          (List.intercalate (List.replicate m '\n') (b2 :: bs')).head? = some c →
          ¬(c = '\n') := by
        intro c hc
        rw [head?_intercalate _ _ _ hb2ne] at hc
        exact hhd b2 (by simp) c hc
      obtain ⟨p, ps, hsr, hsa⟩ := sdn_append b
        (List.replicate m '\n' ++
          List.intercalate (List.replicate m '\n') (b2 :: bs'))
        hbdnl
        (by
          intro x y hx hy hcon
          exact hblast x hx hcon.1)
      have hsepcons : List.replicate m '\n' ++
          List.intercalate (List.replicate m '\n') (b2 :: bs') =
          '\n' :: '\n' :: (List.replicate k '\n' ++
            List.intercalate (List.replicate m '\n') (b2 :: bs')) := by
        rw [hk, show k + 2 = (k + 1) + 1 from rfl,
          List.replicate_succ, List.replicate_succ]
        rfl
      have hsdn2 : splitOnDoubleNewline (List.replicate m '\n' ++
          List.intercalate (List.replicate m '\n') (b2 :: bs')) =
          [] :: splitOnDoubleNewline (List.replicate k '\n' ++
            List.intercalate (List.replicate m '\n') (b2 :: bs')) := by
        rw [hsepcons]
        conv_lhs => unfold splitOnDoubleNewline
        rw [if_pos ⟨rfl, rfl⟩]
      rw [hsr] at hsdn2
      have hp : p = [] := (List.cons.injEq _ _ _ _ ▸ hsdn2).1
      have hps : ps = splitOnDoubleNewline (List.replicate k '\n' ++
          List.intercalate (List.replicate m '\n') (b2 :: bs')) :=
        (List.cons.injEq _ _ _ _ ▸ hsdn2).2
      have hinter : List.intercalate (List.replicate m '\n') (b :: b2 :: bs') =
          b ++ (List.replicate m '\n' ++
            List.intercalate (List.replicate m '\n') (b2 :: bs')) := by
        rw [intercalate_cons_ne _ _ _ (by simp)]
      have hrest := paragraphsOf_sep_cons k
        (List.intercalate (List.replicate m '\n') (b2 :: bs')) hthead
      have hihres := ih (fun x hx => hcl x (by simp [hx]))
        (fun x hx => hhd x (by simp [hx]))
      unfold paragraphsOf at hrest hihres ⊢
      rw [hinter, hsa, hp, hps, List.filterMap_cons]
      simp only [List.append_nil]
      rw [hrest, hihres]
      simp [hbstrip, hbne]

theorem isPyWs_of_mungeset (c : Char)
    (h : c = '\t' ∨ c = '\n' ∨ c = '\x0b' ∨ c = '\x0c' ∨ c = '\r') :
    isPyWs c = true := by
  rcases h with h | h | h | h | h <;> subst h <;> decide

theorem expandtabsGo_id (s : Str) (h : '\t' ∉ s) :
    ∀ col, expandtabsGo col s = s := by
  induction s with
  | nil => intro col; rfl
  | cons c rest ih =>
    intro col
    have hc : ¬(c = '\t') := fun hcon => h (by simp [hcon])
    have hr : '\t' ∉ rest := fun hm => h (List.mem_cons_of_mem c hm)
    unfold expandtabsGo
    rw [if_neg hc]
    by_cases hnr : c = '\n' ∨ c = '\r'
    · rw [if_pos hnr, ih hr 0]
    · rw [if_neg hnr, ih hr (col + 1)]

theorem mungeWhitespace_clean (s : Str)
    (h : ∀ c ∈ s, c = ' ' ∨ isPyWs c = false) :
    mungeWhitespace s = s := by
  unfold mungeWhitespace
  have hnt : '\t' ∉ s := by
    intro hm
    rcases h '\t' hm with hc | hc
    · exact absurd hc (by decide)
    · exact absurd hc (by simp [isPyWs])
  rw [expandtabsGo_id s hnt 0]
  have : ∀ c ∈ s,
      (if c = '\t' ∨ c = '\n' ∨ c = '\x0b' ∨ c = '\x0c' ∨ c = '\r'
        then ' ' else c) = c := by
    intro c hc
    rcases h c hc with hc' | hc'
    · subst hc'; rfl
    · rw [if_neg]
      intro hcon
      rw [isPyWs_of_mungeset c hcon] at hc'
      exact absurd hc' (by simp)
  calc s.map _ = s.map id := List.map_congr_left this
    _ = s := List.map_id s

theorem map_munge_intercalate_nl (lines : List Str)
    (h : ∀ l ∈ lines, ∀ c ∈ l, c = ' ' ∨ isPyWs c = false) :
    (List.intercalate ['\n'] lines).map
      (fun c => if c = '\t' ∨ c = '\n' ∨ c = '\x0b' ∨ c = '\x0c' ∨ c = '\r'
        then ' ' else c) = List.intercalate [' '] lines := by
  induction lines with
  | nil => rfl
  | cons l ls ih =>
    have hmapl : l.map (fun c =>
        if c = '\t' ∨ c = '\n' ∨ c = '\x0b' ∨ c = '\x0c' ∨ c = '\r'
        then ' ' else c) = l := by
      have : ∀ c ∈ l,
          (if c = '\t' ∨ c = '\n' ∨ c = '\x0b' ∨ c = '\x0c' ∨ c = '\r'
            then ' ' else c) = c := by
        intro c hc
        rcases h l (by simp) c hc with hc' | hc'
        · subst hc'; rfl
        · rw [if_neg]
          intro hcon
          rw [isPyWs_of_mungeset c hcon] at hc'
          exact absurd hc' (by simp)
      calc l.map _ = l.map id := List.map_congr_left this
        _ = l := List.map_id l
    cases ls with
    | nil =>
      rw [intercalate_single, intercalate_single, hmapl]
    | cons m ms =>
      rw [intercalate_cons_ne ['\n'] l (m :: ms) (by simp),
        intercalate_cons_ne [' '] l (m :: ms) (by simp)]
      rw [List.map_append, hmapl]
      have hih := ih (fun x hx => h x (List.mem_cons_of_mem l hx))
      have : (['\n'] ++ List.intercalate ['\n'] (m :: ms)).map
          (fun c => if c = '\t' ∨ c = '\n' ∨ c = '\x0b' ∨ c = '\x0c' ∨ c = '\r'
            then ' ' else c) = [' '] ++ List.intercalate [' '] (m :: ms) := by
        rw [List.map_append, hih]
        rfl
      rw [this]

theorem mungeWhitespace_joinNL (lines : List Str)
    (h : ∀ l ∈ lines, ∀ c ∈ l, c = ' ' ∨ isPyWs c = false) :
    mungeWhitespace (joinNL lines) = List.intercalate [' '] lines := by
  unfold mungeWhitespace joinNL
  have hnt : '\t' ∉ List.intercalate ['\n'] lines := by
    intro hm
    induction lines with
    | nil => simp [List.intercalate] at hm
    | cons l ls ih =>
      cases ls with
      | nil =>
        rw [intercalate_single] at hm
        rcases h l (by simp) '\t' hm with hc | hc
        · exact absurd hc (by decide)
        · exact absurd hc (by simp [isPyWs])
      | cons m ms =>
        rw [intercalate_cons_ne _ _ _ (by simp)] at hm
        rcases List.mem_append.mp hm with hm' | hm'
        · rcases h l (by simp) '\t' hm' with hc | hc
          · exact absurd hc (by decide)
          · exact absurd hc (by simp [isPyWs])
        · rcases List.mem_append.mp hm' with hm2 | hm2
          · simp at hm2
          · exact ih (fun x hx => h x (List.mem_cons_of_mem l hx)) hm2
  rw [expandtabsGo_id _ hnt 0]
  exact map_munge_intercalate_nl lines h

theorem intercalate_append_ne (sep : Str) (a b : List Str)
    (ha : a ≠ []) (hb : b ≠ []) :
    List.intercalate sep (a ++ b) =
      List.intercalate sep a ++ sep ++ List.intercalate sep b := by
  induction a with
  | nil => exact absurd rfl ha
  | cons x xs ih =>
    cases xs with
    | nil =>
      rw [show ([x] ++ b) = x :: b from rfl, intercalate_cons_ne _ _ _ hb,
        intercalate_single]
      simp [List.append_assoc]
    | cons y ys =>
      rw [show ((x :: y :: ys) ++ b) = x :: ((y :: ys) ++ b) from rfl]
      rw [intercalate_cons_ne sep x ((y :: ys) ++ b) (by simp)]
      rw [ih (by simp)]
      rw [intercalate_cons_ne sep x (y :: ys) (by simp)]
      simp [List.append_assoc]

theorem intercalate_intercalate (groups : List (List Str))
    (h : ∀ g ∈ groups, g ≠ []) :
    List.intercalate [' '] (groups.map (List.intercalate [' '])) =
      List.intercalate [' '] groups.flatten := by
  induction groups with
  | nil => rfl
  | cons g gs ih =>
    cases gs with
    | nil =>
      rw [List.map_cons, List.map_nil, intercalate_single]
      simp
    | cons g2 gs' =>
      rw [List.map_cons, intercalate_cons_ne _ _ _ (by simp)]
      rw [ih (fun x hx => h x (List.mem_cons_of_mem g hx))]
      have hfl : (g2 :: gs').flatten ≠ [] := by
        rw [List.flatten_cons]
        exact fun hcon =>
          (h g2 (by simp)) (List.append_eq_nil.mp hcon).1
      conv_rhs => rw [List.flatten_cons]
      rw [intercalate_append_ne [' '] g (g2 :: gs').flatten (h g (by simp)) hfl]
      simp [List.append_assoc]

theorem mem_intercalate_sp (g : List Str) (c : Char)
    (hc : c ∈ List.intercalate [' '] g) : c = ' ' ∨ ∃ t ∈ g, c ∈ t := by
  induction g with
  | nil => simp [List.intercalate] at hc
  | cons t gs ih =>
    cases gs with
    | nil =>
      rw [intercalate_single] at hc
      exact Or.inr ⟨t, by simp, hc⟩
    | cons t2 gs' =>
      rw [intercalate_cons_ne _ _ _ (by simp)] at hc
      rcases List.mem_append.mp hc with h1 | h1
      · exact Or.inr ⟨t, by simp, h1⟩
      · rcases List.mem_append.mp h1 with h2 | h2
        · simp at h2
          exact Or.inl h2
        · rcases ih h2 with h3 | ⟨u, hu, hcu⟩
          · exact Or.inl h3
          · exact Or.inr ⟨u, List.mem_cons_of_mem t hu, hcu⟩

theorem getLast?_intercalate (sep : Str) (g : List Str) (hne : g ≠ [])
    (h : ∀ t ∈ g, t ≠ []) :
    ∃ c t, (List.intercalate sep g).getLast? = some c ∧ t ∈ g ∧ c ∈ t := by
  induction g with
  | nil => exact absurd rfl hne
  | cons t gs ih =>
    cases gs with
    | nil =>
      rw [intercalate_single]
      obtain ⟨c, hc⟩ := Option.isSome_iff_exists.mp
        (List.getLast?_isSome.mpr (h t (by simp)))
      exact ⟨c, t, hc, by simp, List.mem_of_mem_getLast? hc⟩
    | cons t2 gs' =>
      obtain ⟨c, u, hcu, hu, hcm⟩ := ih (by simp)
        (fun x hx => h x (List.mem_cons_of_mem t hx))
      refine ⟨c, u, ?_, List.mem_cons_of_mem t hu, hcm⟩
      rw [intercalate_cons_ne _ _ _ (by simp)]
      rw [List.getLast?_append, List.getLast?_append, hcu]
      rfl

theorem dropWhile_head_false (p : Char → Bool) (s : Str)
    (h : ∀ c, s.head? = some c → p c = false) : s.dropWhile p = s := by
  cases s with
  | nil => rfl
  | cons c rest =>
    rw [List.dropWhile_cons, if_neg (by simp [h c rfl])]

theorem pyStrip_ends (s : Str)
    (hh : ∀ c, s.head? = some c → isPyWs c = false)
    (hl : ∀ c, s.getLast? = some c → isPyWs c = false) :
    pyStrip s = s := by
  unfold pyStrip pyLStrip
  rw [dropWhile_head_false isPyWs s hh]
  unfold pyRStrip
  rw [dropWhile_head_false isPyWs s.reverse (by
    intro c hc
    apply hl
    rwa [List.head?_reverse] at hc), List.reverse_reverse]

theorem getLast?_intercalate_last (sep : Str) (g : List Str) (hne : g ≠ [])
    (h : ∀ t ∈ g, t ≠ []) :
    ∃ t ∈ g, (List.intercalate sep g).getLast? = t.getLast? := by
  induction g with
  | nil => exact absurd rfl hne
  | cons t gs ih =>
    cases gs with
    | nil =>
      rw [intercalate_single]
      exact ⟨t, by simp, rfl⟩
    | cons t2 gs' =>
      obtain ⟨u, hu, hlast⟩ := ih (by simp)
        (fun x hx => h x (List.mem_cons_of_mem t hx))
      refine ⟨u, List.mem_cons_of_mem t hu, ?_⟩
      rw [intercalate_cons_ne _ _ _ (by simp)]
      rw [List.getLast?_append, List.getLast?_append, hlast]
      obtain ⟨c, hc⟩ := Option.isSome_iff_exists.mp
        (List.getLast?_isSome.mpr (h u (List.mem_cons_of_mem t hu)))
      rw [hc]
      rfl

theorem joinNL_head? (l : Str) (ls : List Str) (hl : l ≠ []) :
    (joinNL (l :: ls)).head? = l.head? := by
  unfold joinNL
  exact head?_intercalate ['\n'] l ls hl

theorem hasDoubleNL_joinNL (lines : List Str)
    (h : ∀ l ∈ lines, l ≠ [] ∧ '\n' ∉ l) :
    hasDoubleNL (joinNL lines) = false := by
  induction lines with
  | nil => rfl
  | cons l ls ih =>
    cases ls with
    | nil =>
      rw [joinNL_single]
      exact hasDoubleNL_no_nl l (h l (by simp)).2
    | cons m ms =>
      rw [joinNL_cons l (m :: ms) (by simp)]
      apply hasDoubleNL_append
      · exact hasDoubleNL_no_nl l (h l (by simp)).2
      · have hj := ih (fun x hx => h x (List.mem_cons_of_mem l hx))
        have hjh : (joinNL (m :: ms)).head? = m.head? :=
          joinNL_head? m ms (h m (by simp)).1
        cases hcase : joinNL (m :: ms) with
        | nil => rfl
        | cons d rest =>
          show ((('\n' : Char) = '\n' && d = '\n') || hasDoubleNL (d :: rest)) = false
          have hd : ¬(d = '\n') := by
            rw [hcase] at hjh
            have hdm : d ∈ m := List.mem_of_mem_head? (hjh ▸ rfl)
            exact fun hcon => (h m (by simp)).2 (hcon ▸ hdm)
          rw [hcase] at hj
          simp [hd, hj]
      · intro x y hx hy hcon
        exact (h l (by simp)).2 (hcon.1 ▸ List.mem_of_mem_getLast? hx)

theorem wrapText_clean (w : Nat) (hw : 1 ≤ w) (toks : List Str) (hne : toks ≠ [])
    (hcl : ∀ tok ∈ toks, tok ≠ [] ∧ tok.length ≤ w ∧ ∀ c ∈ tok, isPyWs c = false) :
    ∃ groups : List (List Str),
      wrapText (List.intercalate [' '] toks) w [] =
        groups.map (List.intercalate [' ']) ∧
      groups.flatten = toks ∧ groups ≠ [] ∧ ∀ g ∈ groups, g ≠ [] := by
  have hmunge : mungeWhitespace (List.intercalate [' '] toks) =
      List.intercalate [' '] toks := by
    apply mungeWhitespace_clean
    intro c hc
    rcases mem_intercalate_sp toks c hc with hc' | ⟨u, hu, hcu⟩
    · exact Or.inl hc'
    · exact Or.inr ((hcl u hu).2.2 c hcu)
  have hchunks : splitChunks (mungeWhitespace (List.intercalate [' '] toks)) =
      List.intersperse [' '] toks := by
    rw [hmunge]
    exact splitChunks_clean toks hne
      (fun tok htok => ⟨(hcl tok htok).1, (hcl tok htok).2.2⟩)
  obtain ⟨groups, hwf, hfl, hgne⟩ := wrapFuel_clean w hw toks.length toks false []
    (chunkMeasure (List.intersperse [' '] toks) + 1)
    (Nat.le_refl _) hne hcl
    (by simp)
    (by simp)
  refine ⟨groups, ?_, hfl, ?_, hgne⟩
  · unfold wrapText
    rw [hchunks]
    simp only [Bool.false_eq_true, if_false, List.nil_append] at hwf
    rw [hwf]
  · intro hcon
    rw [hcon] at hfl
    exact hne hfl.symm

theorem wrappedBlock_clean (w : Nat) (hw : 1 ≤ w) (toks : List Str)
    (hne : toks ≠ [])
    (hcl : ∀ tok ∈ toks, tok ≠ [] ∧ tok.length ≤ w ∧ ∀ c ∈ tok, isPyWs c = false) :
    wrappedBlock w [] false (wrappedBlock w [] false (List.intercalate [' '] toks))
        = wrappedBlock w [] false (List.intercalate [' '] toks) ∧
    wrappedBlock w [] false (List.intercalate [' '] toks) ≠ [] ∧
    hasDoubleNL (wrappedBlock w [] false (List.intercalate [' '] toks)) = false ∧
    pyStrip (wrappedBlock w [] false (List.intercalate [' '] toks)) =
      wrappedBlock w [] false (List.intercalate [' '] toks) ∧
    (∀ c, (wrappedBlock w [] false (List.intercalate [' '] toks)).head? = some c →
      isPyWs c = false) ∧
    (∀ c, (wrappedBlock w [] false (List.intercalate [' '] toks)).getLast? = some c →
      isPyWs c = false) := by
  obtain ⟨groups, hwt, hfl, hgnil, hgne⟩ := wrapText_clean w hw toks hne hcl
  have htoksub : ∀ g ∈ groups, ∀ x ∈ g, x ∈ toks := by
    intro g hg x hx
    rw [← hfl]
    exact List.mem_flatten.mpr ⟨g, hg, hx⟩
  have hlprops : ∀ l ∈ groups.map (List.intercalate [' ']),
      l ≠ [] ∧ (∀ c ∈ l, c = ' ' ∨ isPyWs c = false) ∧
      (∀ c, l.head? = some c → isPyWs c = false) ∧
      (∀ c, l.getLast? = some c → isPyWs c = false) := by
    intro l hl
    obtain ⟨g, hg, hlg⟩ := List.mem_map.mp hl
    obtain ⟨t, g', rfl⟩ : ∃ t g', g = t :: g' := by
      cases g with
      | nil => exact absurd rfl (hgne [] hg)
      | cons t g' => exact ⟨t, g', rfl⟩
    have htne : t ≠ [] := (hcl t (htoksub _ hg t (by simp))).1
    have hhead := head?_intercalate [' '] t g' htne
    obtain ⟨c0, hc0⟩ : ∃ c0, t.head? = some c0 := by
      cases t with
      | nil => exact absurd rfl htne
      | cons a b => exact ⟨a, rfl⟩
    refine ⟨?_, ?_, ?_, ?_⟩
    · intro hcon
      rw [hlg, hcon, hc0] at hhead
      simp at hhead
    · intro c hc
      rw [← hlg] at hc
      rcases mem_intercalate_sp (t :: g') c hc with hc' | ⟨u, hu, hcu⟩
      · exact Or.inl hc'
      · exact Or.inr ((hcl u (htoksub _ hg u hu)).2.2 c hcu)
    · intro c hc
      rw [← hlg, hhead] at hc
      exact (hcl t (htoksub _ hg t (by simp))).2.2 c (List.mem_of_mem_head? hc)
    · intro c hc
      obtain ⟨u, hu, hul⟩ := getLast?_intercalate_last [' '] (t :: g') (by simp)
        (fun x hx => (hcl x (htoksub _ hg x hx)).1)
      rw [← hlg, hul] at hc
      exact (hcl u (htoksub _ hg u hu)).2.2 c (List.mem_of_mem_getLast? hc)
  have hlines_ne : groups.map (List.intercalate [' ']) ≠ [] := by
    intro hcon
    exact hgnil (List.map_eq_nil_iff.mp hcon)
  have hlNoNl : ∀ l ∈ groups.map (List.intercalate [' ']),
      l ≠ [] ∧ '\n' ∉ l := by
    intro l hl
    refine ⟨(hlprops l hl).1, ?_⟩
    intro hm
    rcases (hlprops l hl).2.1 '\n' hm with hc | hc
    · exact absurd hc (by decide)
    · exact absurd hc (by simp [isPyWs])
  have hb_def : wrappedBlock w [] false (List.intercalate [' '] toks) =
      joinNL (groups.map (List.intercalate [' '])) := by
    show joinNL (splitlinesNL (fill (List.intercalate [' '] toks) w [])) = _
    unfold fill
    rw [hwt, splitlinesNL_joinNL _ hlines_ne hlNoNl]
  have hbhead : ∀ c,
      (joinNL (groups.map (List.intercalate [' ']))).head? = some c →
      isPyWs c = false := by
    intro c hc
    cases hcase : groups.map (List.intercalate [' ']) with
    | nil => exact absurd hcase hlines_ne
    | cons l0 rest =>
      rw [hcase, joinNL_head? l0 rest
        ((hlprops l0 (by rw [hcase]; simp)).1)] at hc
      exact (hlprops l0 (by rw [hcase]; simp)).2.2.1 c hc
  have hblast : ∀ c,
      (joinNL (groups.map (List.intercalate [' ']))).getLast? = some c →
      isPyWs c = false := by
    intro c hc
    obtain ⟨l, hl, hll⟩ := getLast?_intercalate_last ['\n']
      (groups.map (List.intercalate [' '])) hlines_ne
      (fun x hx => (hlprops x hx).1)
    have hc' : (List.intercalate ['\n']
        (groups.map (List.intercalate [' ']))).getLast? = some c := hc
    rw [hll] at hc'
    exact (hlprops l hl).2.2.2 c hc'
  have hbne : joinNL (groups.map (List.intercalate [' '])) ≠ [] := by
    cases hcase : groups.map (List.intercalate [' ']) with
    | nil => exact absurd hcase hlines_ne
    | cons l0 rest =>
      exact joinNL_ne_nil l0 rest ((hlprops l0 (by rw [hcase]; simp)).1)
  have hbdnl : hasDoubleNL (joinNL (groups.map (List.intercalate [' ']))) = false :=
    hasDoubleNL_joinNL _ hlNoNl
  have hbstrip : pyStrip (joinNL (groups.map (List.intercalate [' ']))) =
      joinNL (groups.map (List.intercalate [' '])) :=
    pyStrip_ends _ hbhead hblast
  have hmungeP : mungeWhitespace (List.intercalate [' '] toks) =
      List.intercalate [' '] toks := by
    apply mungeWhitespace_clean
    intro c hc
    rcases mem_intercalate_sp toks c hc with hc' | ⟨u, hu, hcu⟩
    · exact Or.inl hc'
    · exact Or.inr ((hcl u hu).2.2 c hcu)
  have hmungeB : mungeWhitespace (joinNL (groups.map (List.intercalate [' ']))) =
      List.intercalate [' '] toks := by
    rw [mungeWhitespace_joinNL _ (fun l hl => (hlprops l hl).2.1)]
    rw [intercalate_intercalate groups hgne, hfl]
  have hwt2 : wrapText (joinNL (groups.map (List.intercalate [' ']))) w [] =
      groups.map (List.intercalate [' ']) := by
    have heq : wrapText (joinNL (groups.map (List.intercalate [' ']))) w [] =
        wrapText (List.intercalate [' '] toks) w [] := by
      unfold wrapText
      rw [hmungeB, hmungeP]
    rw [heq, hwt]
  have hidem : wrappedBlock w [] false
      (joinNL (groups.map (List.intercalate [' ']))) =
      joinNL (groups.map (List.intercalate [' '])) := by
    show joinNL (splitlinesNL (fill (joinNL (groups.map (List.intercalate [' ']))) w [])) = _
    unfold fill
    rw [hwt2, splitlinesNL_joinNL _ hlines_ne hlNoNl]
  rw [hb_def]
  exact ⟨hidem, hbne, hbdnl, hbstrip, hbhead, hblast⟩

theorem formatParagraphs_zero (text : Str) (w : Nat) (r : Bool) (s : Int) :
    formatParagraphs text w 0 r s =
      List.intercalate (List.replicate (max s 1).toNat '\n')
        ((paragraphsOf text).map (wrappedBlock w [] r)) := by
  unfold formatParagraphs
  norm_num

/-- Claim C4, corrected.  `format_paragraphs` is not idempotent in
general (with the default `line_spacing=1` the single separating newline
is not a blank line, so a second pass merges the paragraphs; long words
and runs of spaces also break idempotence).  It is idempotent at fixed
width when `line_spacing ≥ 2`, `indent = 0`, `rtl_align = False`, and
every paragraph consists of single-space-separated whitespace-free words
of length at most `width`. -/
theorem c4_idempotent_clean (t : Str) (w : Nat) (s : Int) (hw : 1 ≤ w)
    (hs : 2 ≤ s)
    (hclean : ∀ p ∈ paragraphsOf t, ∃ toks : List Str, toks ≠ [] ∧
      (∀ tok ∈ toks, tok ≠ [] ∧ tok.length ≤ w ∧ ∀ c ∈ tok, isPyWs c = false) ∧
      p = List.intercalate [' '] toks) :
    formatParagraphs (formatParagraphs t w 0 false s) w 0 false s
      = formatParagraphs t w 0 false s := by
  have hm2 : 2 ≤ (max s 1).toNat := by
    rw [max_eq_left (by omega : (1 : Int) ≤ s)]
    omega
  have hblocks : ∀ b ∈ (paragraphsOf t).map (wrappedBlock w [] false),
      wrappedBlock w [] false b = b ∧ b ≠ [] ∧ hasDoubleNL b = false ∧
      pyStrip b = b ∧ (∀ c, b.head? = some c → isPyWs c = false) ∧
      (∀ c, b.getLast? = some c → isPyWs c = false) := by
    intro b hb
    obtain ⟨p, hp, hbp⟩ := List.mem_map.mp hb
    obtain ⟨toks, htne, htcl, hptoks⟩ := hclean p hp
    have hres := wrappedBlock_clean w hw toks htne htcl
    rw [← hptoks] at hres
    rw [← hbp]
    exact hres
  have hpar : paragraphsOf (List.intercalate (List.replicate (max s 1).toNat '\n')
      ((paragraphsOf t).map (wrappedBlock w [] false))) =
      (paragraphsOf t).map (wrappedBlock w [] false) := by
    apply paragraphsOf_intercalate (max s 1).toNat hm2
    · intro b hb
      obtain ⟨hi, hne, hdnl, hstrip, hhd, hlast⟩ := hblocks b hb
      refine ⟨hne, hdnl, hstrip, ?_⟩
      intro c hc hcon
      have hf := hlast c hc
      rw [hcon] at hf
      exact absurd hf (by decide)
    · intro b hb c hc hcon
      obtain ⟨hi, hne, hdnl, hstrip, hhd, hlast⟩ := hblocks b hb
      have hf := hhd c hc
      rw [hcon] at hf
      exact absurd hf (by decide)
  have hmap : ((paragraphsOf t).map (wrappedBlock w [] false)).map
      (wrappedBlock w [] false) = (paragraphsOf t).map (wrappedBlock w [] false) := by
    calc ((paragraphsOf t).map (wrappedBlock w [] false)).map
          (wrappedBlock w [] false)
        = ((paragraphsOf t).map (wrappedBlock w [] false)).map id :=
          List.map_congr_left (fun b hb => (hblocks b hb).1)
      _ = (paragraphsOf t).map (wrappedBlock w [] false) := List.map_id _
  rw [formatParagraphs_zero, formatParagraphs_zero, hpar, hmap]

theorem c4_counterexample :
    formatParagraphs (formatParagraphs (str ("a\n\nb")) 5) 5 ≠
      formatParagraphs (str ("a\n\nb")) 5 := by decide

theorem c4_witness :
    formatParagraphs (formatParagraphs (str ("hello world")) 5 0 false 2) 5 0 false 2
      = formatParagraphs (str ("hello world")) 5 0 false 2 :=
  c4_idempotent_clean (str ("hello world")) 5 2 (by decide) (by decide)
    (by
      intro p hp
      have hps : paragraphsOf (str ("hello world")) = [str ("hello world")] := by
        decide
      rw [hps] at hp
      have hp2 : p = str ("hello world") := by simpa using hp
      exact ⟨[str ("hello"), str ("world")], by decide, by decide,
        by rw [hp2]; decide⟩)

theorem c1_witness :
    (1 ≤ 3 ∧ 3 < (str ("abcde")).length ∧
      ∀ c ∈ str ("abcde"), isPyWs c = false ∧ c ≠ '-') ∧
    (formatParagraphs (str ("abcde")) 3 = joinNL (piecesOf 3 (str ("abcde"))) ∧
      (piecesOf 3 (str ("abcde"))).flatten = str ("abcde") ∧
      formatParagraphs (str ("abcde")) 3 ≠ str ("abcde")) :=
  ⟨⟨by decide, by decide, by decide⟩,
    c1_long_token (str ("abcde")) 3 (by decide) (by decide) (by decide)⟩

theorem c10_witness :
    (∀ p, pathExists (fun _ => (none : Option FileEntry)) p =
        pathExists (fun _ => (none : Option FileEntry)) p ∧
      pathIsFile (fun _ => (none : Option FileEntry)) p =
        pathIsFile (fun _ => (none : Option FileEntry)) p) ∧
    (((∃ p ∈ [str ("a.txt")],
        ¬(pathExists (fun _ => (none : Option FileEntry)) p = true ∧
          pathIsFile (fun _ => (none : Option FileEntry)) p = true)) →
      ∃ msg, gatherChapters (fun _ => (none : Option FileEntry)) [str ("a.txt")] =
        .error (.fileNotFound msg)) ∧
    ((∀ p ∈ [str ("a.txt")],
        pathExists (fun _ => (none : Option FileEntry)) p = true ∧
          pathIsFile (fun _ => (none : Option FileEntry)) p = true) →
      [str ("a.txt")].length ≠ requiredChapterCount →
      gatherChapters (fun _ => (none : Option FileEntry)) [str ("a.txt")] =
        .error (.countMismatch (str ("Expected 25 chapters but received ") ++
          natToStr [str ("a.txt")].length)) ∧
      gatherChapters (fun _ => (none : Option FileEntry)) [str ("a.txt")] =
        gatherChapters (fun _ => (none : Option FileEntry)) [str ("a.txt")])) :=
  ⟨fun _ => ⟨rfl, rfl⟩,
    c10_check_order (fun _ => (none : Option FileEntry))
      (fun _ => (none : Option FileEntry)) [str ("a.txt")]
      (fun _ => ⟨rfl, rfl⟩)⟩
